import Mathlib

/-!
Verification of the PDAS (primal-dual active set) ℓ₁ trend-filtering solver
`pdas_sg2.c` (functions `active_set`, `update_primal`, `update_dual`,
`locate_violators`, `reassign_violators`, `Dx`, `DTx`, `cmp`).

The C code works on `double` arrays; the embedding uses exact rationals `ℚ`
and `List ℚ` for the arrays, with `List.getD · 0` for array reads and
`List.set` for array writes.  The external LAPACKE banded solve is the only
piece of the computation not present in the source; it is modelled from the
spec as an exact linear solve (see `solveAug`).
-/

namespace Pdas

/-- C macro `max(x,y) = ((x)>(y)?(x):(y))` on doubles, over `ℚ`. -/
def cmax (x y : ℚ) : ℚ := if x > y then x else y

/-- C macro `min(x,y) = ((x)<(y)?(x):(y))` on doubles, over `ℚ`. -/
def cmin (x y : ℚ) : ℚ := if x < y then x else y

/-- C `round` (round half away from zero), composed with the `(int)` cast,
which is the identity on the already-integral result. -/
def cround (x : ℚ) : ℤ := if 0 ≤ x then ⌊x + 1/2⌋ else -⌊-x + 1/2⌋

/-- Source `Dx`: `y[i] = -x[i] + 2 x[i+1] - x[i+2]` for `i = 0..n-3`,
written in the source as `-*x + *(x+1) + *(x+1) - *(x+2)`. -/
def Dx (n : ℕ) (x : List ℚ) : List ℚ :=
  (List.range (n - 2)).map (fun i =>
    -(x.getD i 0) + x.getD (i+1) 0 + x.getD (i+1) 0 - x.getD (i+2) 0)

/-- Source `DTx`: applied to an input of length `n`, produces the length
`n+2` adjoint stencil: `y[0] = -x[0]`, `y[1] = 2x[0] - x[1]`,
`y[i] = -x[i-2] + 2x[i-1] - x[i]` for `i = 2..n-1`,
`y[n] = -x[n-2] + 2x[n-1]`, `y[n+1] = -x[n-1]`. -/
def DTx (n : ℕ) (x : List ℚ) : List ℚ :=
  (-(x.getD 0 0)) ::
  (x.getD 0 0 + x.getD 0 0 - x.getD 1 0) ::
  ((List.range (n - 2)).map (fun j =>
      -(x.getD j 0) + x.getD (j+1) 0 + x.getD (j+1) 0 - x.getD (j+2) 0)
   ++ [ -(x.getD (n-2) 0) + x.getD (n-1) 0 + x.getD (n-1) 0,
        -(x.getD (n-1) 0) ])

/-- Source `update_primal`: `x = y - lambda*D'*z`, computed by the pointer
walk of the C code: `x[0] = y[0] + z[0]*lam`,
`x[1] = y[1] + (z[1] - z[0] - z[0])*lam`,
`x[i] = y[i] + (z[i-2] - z[i-1] - z[i-1] + z[i])*lam` for `i = 2..n-3`,
`x[n-2] = y[n-2] + (z[n-4] - z[n-3] - z[n-3])*lam`,
`x[n-1] = y[n-1] + z[n-3]*lam`. -/
def update_primal (n : ℕ) (y z : List ℚ) (lam : ℚ) : List ℚ :=
  (y.getD 0 0 + z.getD 0 0 * lam) ::
  (y.getD 1 0 + (z.getD 1 0 - z.getD 0 0 - z.getD 0 0) * lam) ::
  ((List.range (n - 4)).map (fun j =>
      y.getD (j+2) 0 +
        (z.getD j 0 - z.getD (j+1) 0 - z.getD (j+1) 0 + z.getD (j+2) 0) * lam)
   ++ [ y.getD (n-2) 0 + (z.getD (n-4) 0 - z.getD (n-3) 0 - z.getD (n-3) 0) * lam,
        y.getD (n-1) 0 + z.getD (n-3) 0 * lam ])

/-- Source `locate_violators` loop body, written as a recursion over the
remaining indices; the second argument is the running violator count used
for the `vio_sort[n_vio] = n_vio` writes.  Returns
`(n_vio, vio_index, vio_fitness, vio_sort)`. -/
def lvAux (z dx : List ℚ) (lam : ℚ) : List ℕ → ℕ → ℕ × List ℕ × List ℚ × List ℕ
  | [], _ => (0, [], [], [])
  | i :: rest, c =>
    let zi := z.getD i 0
    let dxi := dx.getD i 0
    if zi = 1 then
      if dxi < 0 then
        let r := lvAux z dx lam rest (c+1)
        (r.1 + 1, i :: r.2.1, cmax (lam * |dxi|) 1 :: r.2.2.1, c :: r.2.2.2)
      else lvAux z dx lam rest c
    else if zi = -1 then
      if dxi > 0 then
        let r := lvAux z dx lam rest (c+1)
        (r.1 + 1, i :: r.2.1, cmax (lam * |dxi|) 1 :: r.2.2.1, c :: r.2.2.2)
      else lvAux z dx lam rest c
    else if zi > 1 then
      let r := lvAux z dx lam rest (c+1)
      (r.1 + 1, i :: r.2.1, cmax (lam * |dxi|) |zi| :: r.2.2.1, c :: r.2.2.2)
    else if zi < -1 then
      let r := lvAux z dx lam rest (c+1)
      (r.1 + 1, i :: r.2.1, cmax (lam * |dxi|) |zi| :: r.2.2.1, c :: r.2.2.2)
    else lvAux z dx lam rest c

/-- Source `locate_violators`: scans `i = 0..n-3`. -/
def locate_violators (n : ℕ) (z : List ℚ) (lam : ℚ) (dx : List ℚ) :
    ℕ × List ℕ × List ℚ × List ℕ :=
  lvAux z dx lam (List.range (n - 2)) 0

/-- One iteration of the source `reassign_violators` loop at array cell
`idx`: the four-way branch on `z[idx]`. -/
def rstep (zc : List ℚ) (idx : ℕ) : List ℚ :=
  let v := zc.getD idx 0
  if v = 1 then zc.set idx 0
  else if v = -1 then zc.set idx 0
  else if v > 1 then zc.set idx 1
  else if v < -1 then zc.set idx (-1)
  else zc

/-- Source `reassign_violators`: for `i = 0..n_vio-1` rewrites
`z[vio_index[vio_sort[i]]]` in place. -/
def reassign_violators (n_vio : ℕ) (z : List ℚ) (vio_index vio_sort : List ℕ) :
    List ℚ :=
  (List.range n_vio).foldl
    (fun zc i => rstep zc (vio_index.getD (vio_sort.getD i 0) 0)) z

/-- First loop of source `update_dual`: computes `div_zi = D[I]^T z[I]`
in place (stencil contributions from exactly the coordinates with
`z[i] == 1 || z[i] == -1`) and decrements the active count `k` from its
initial value `n - 2`.  The malloc'd buffer is modelled as zero-initialised;
the explicit `div_zi[i+2] = 0` writes of the source are kept. -/
def divStep (z : List ℚ) (st : List ℚ × ℕ) (i : ℕ) : List ℚ × ℕ :=
  let d := st.1.set (i+2) 0
  let zi := z.getD i 0
  if zi = 1 ∨ zi = -1 then
    let d1 := d.set i (d.getD i 0 - zi)
    let d2 := d1.set (i+1) (d1.getD (i+1) 0 + 2*zi)
    (d2.set (i+2) (d2.getD (i+2) 0 - zi), st.2 - 1)
  else (d, st.2)

def div_count (n : ℕ) (z : List ℚ) : List ℚ × ℕ :=
  (List.range (n - 2)).foldl (divStep z) (List.replicate n 0, n - 2)

/-- First-superdiagonal entry rule of the source assembly loop:
`-4.0` if `i - previous == 1`, `1.0` if `i - previous == 2`, else `0.0`. -/
def rule1 (i : ℕ) (prev : ℤ) : ℚ :=
  if (i:ℤ) - prev = 1 then -4 else if (i:ℤ) - prev = 2 then 1 else 0

/-- Second-superdiagonal entry rule of the source assembly loop:
`1.0` if `i - two_previous == 2`, else `0.0`. -/
def rule2 (i : ℕ) (prev2 : ℤ) : ℚ :=
  if (i:ℤ) - prev2 = 2 then 1 else 0

/-- Right-hand-side entry of the source assembly loop:
`b[ik] = ((y[i+1] + y[i+1] - y[i] - y[i+2])/lambda) - div_zi[i+1] - div_zi[i+1] + div_zi[i] + div_zi[i+2]`. -/
def bFormula (y : List ℚ) (lam : ℚ) (dzi : List ℚ) (i : ℕ) : ℚ :=
  (y.getD (i+1) 0 + y.getD (i+1) 0 - y.getD i 0 - y.getD (i+2) 0) / lam
    - dzi.getD (i+1) 0 - dzi.getD (i+1) 0 + dzi.getD i 0 + dzi.getD (i+2) 0

/-- Banded-system assembly produced by the second loop of `update_dual`:
`ab2`/`ab1`/`ab0` are the second superdiagonal, first superdiagonal and
main diagonal rows of the LAPACK band storage `ab` (the source writes them
at `ab[ik]`, `ab[ik+k]`, `ab[ik+2*k]`), and `b` is the right-hand side. -/
structure Asm where
  ab2 : List ℚ
  ab1 : List ℚ
  ab0 : List ℚ
  b : List ℚ

/-- Second loop of source `update_dual`, as a recursion over the remaining
indices carrying the `previous` and `two_previous` counters (both
initialised to `-3`). -/
def asmAux (y z : List ℚ) (lam : ℚ) (dzi : List ℚ) :
    List ℕ → ℤ → ℤ → Asm
  | [], _, _ => ⟨[], [], [], []⟩
  | i :: rest, prev, prev2 =>
    if z.getD i 0 ≠ 1 ∧ z.getD i 0 ≠ -1 then
      let a := asmAux y z lam dzi rest (i : ℤ) prev
      ⟨rule2 i prev2 :: a.ab2,
       rule1 i prev :: a.ab1,
       (6:ℚ) :: a.ab0,
       bFormula y lam dzi i :: a.b⟩
    else asmAux y z lam dzi rest prev prev2

/-- The symmetric pentadiagonal matrix encoded by the band rows
(`ab0` main diagonal, `ab1` first superdiagonal indexed by its column,
`ab2` second superdiagonal indexed by its column), as LAPACKE's `dpbsv`
reads it from the upper band storage. -/
def bandEntry (a : Asm) (r c : ℕ) : ℚ :=
  if r = c then a.ab0.getD r 0
  else if c = r + 1 then a.ab1.getD c 0
  else if c = r + 2 then a.ab2.getD c 0
  else if r = c + 1 then a.ab1.getD r 0
  else if r = c + 2 then a.ab2.getD r 0
  else 0

/-- Modelled from the spec: the external LAPACKE `dpbsv` call (symmetric
positive-definite banded solve, Cholesky factorisation + triangular solves)
is not part of this repository.  It is modelled as exact Gaussian
elimination without pivoting on the augmented rows, which returns the
unique solution of the linear system whenever the elimination pivots are
nonzero, and `none` (the solver-failure case, which the driver is specified
to log and ignore) otherwise. -/
def solveAugF : ℕ → List (List ℚ) → Option (List ℚ)
  | _, [] => some []
  | 0, _ :: _ => none
  | _+1, [] :: _ => none
  | fuel+1, (piv :: rest) :: rs =>
    if piv = 0 then none
    else
      match solveAugF fuel (rs.map (fun row =>
          List.zipWith (fun a c => a - (row.headD 0 / piv) * c) row.tail rest)) with
      | none => none
      | some xs =>
        some ((rest.getD xs.length 0 - (List.zipWith (fun a b => a * b) rest xs).sum) / piv
              :: xs)

/-- Gaussian elimination entry point; the fuel `rows.length` always
suffices since each elimination step drops one row. -/
def solveAug (rows : List (List ℚ)) : Option (List ℚ) :=
  solveAugF rows.length rows

/-- Third loop of source `update_dual`: writes the solved values back into
the active coordinates of `z`, in walk order. -/
def write_back (n : ℕ) (z bsol : List ℚ) : List ℚ :=
  ((List.range (n - 2)).foldl
    (fun st i =>
      let zi := st.1.getD i 0
      if zi ≠ 1 ∧ zi ≠ -1 then (st.1.set i (bsol.getD st.2 0), st.2 + 1) else st)
    (z, 0)).1

/-- Source `update_dual`: computes `div_zi` and the active count `k`,
assembles the band matrix and the right-hand side, solves, and writes the
solution back into the active coordinates of `z`; returns `k` and the new
`z`.  On solver failure the right-hand side buffer is left as the model's
unsolved right-hand side (the source continues with whatever `dpbsv` left
in `b`). -/
def update_dual (n : ℕ) (y z : List ℚ) (lam : ℚ) : ℕ × List ℚ :=
  let dk := div_count n z
  let a := asmAux y z lam dk.1 (List.range (n - 2)) (-3) (-3)
  let rows := (List.range dk.2).map (fun r =>
    (List.range dk.2).map (fun c => bandEntry a r c) ++ [a.b.getD r 0])
  let bsol := (solveAug rows).getD a.b
  (dk.2, write_back n z bsol)

/-- Order induced by the source comparator `cmp`: `qsort(vio_sort, ...)`
sorts the entries of `vio_sort` into descending order of
`vio_fitness[·]`. -/
def fitGE (f : List ℚ) (a b : ℕ) : Prop := f.getD b 0 ≤ f.getD a 0

instance fitGEDec (f : List ℚ) : DecidableRel (fitGE f) :=
  fun a b => inferInstanceAs (Decidable (f.getD b 0 ≤ f.getD a 0))

instance fitGETotal (f : List ℚ) : IsTotal ℕ (fitGE f) :=
  ⟨fun a b => le_total (f.getD b 0) (f.getD a 0)⟩

instance fitGETrans (f : List ℚ) : IsTrans ℕ (fitGE f) :=
  ⟨fun _ _ _ hab hbc => le_trans hbc hab⟩

/-- Driver-local safeguard-queue state: the reassignment proportion `p`,
the circular buffer `vio_queue`, `queue_index`, and the tracked extrema
`min_queue`/`max_queue` with their positions. -/
structure QState where
  p : ℚ
  q : List ℕ
  qi : ℕ
  minq : ℕ
  minqi : ℕ
  maxq : ℕ
  maxqi : ℕ
  deriving DecidableEq

/-- Source rescan loop `max_queue = 0; for j ...` run when the overwritten
slot held the tracked maximum; the old index is kept when no entry beats
the initial `0`. -/
def rescanMax (m : ℕ) (q : List ℕ) (oldIdx : ℕ) : ℕ × ℕ :=
  (List.range m).foldl
    (fun st j => if q.getD j 0 > st.1 then (q.getD j 0, j) else st) (0, oldIdx)

/-- Source rescan loop `min_queue = n; for j ...` run when the overwritten
slot held the tracked minimum. -/
def rescanMin (n m : ℕ) (q : List ℕ) (oldIdx : ℕ) : ℕ × ℕ :=
  (List.range m).foldl
    (fun st j => if q.getD j 0 < st.1 then (q.getD j 0, j) else st) (n, oldIdx)

/-- The three-branch safeguard-queue / proportion update of the driver:
new minimum (inflate `p`, push, rescan max if its slot was overwritten),
`n_vio >= max_queue` (deflate `p` with the C integer quotient `1 / n_vio`,
no push), intermediate (push, rescan whichever extremum was displaced). -/
def queueUpdate (n m : ℕ) (ds de : ℚ) (nv : ℕ) (s : QState) : QState :=
  if nv < s.minq then
    let qq := s.q.set s.qi nv
    let mx := if s.qi = s.maxqi then rescanMax m qq s.maxqi else (s.maxq, s.maxqi)
    { p := cmin (de * s.p) 1, q := qq, qi := (s.qi + 1) % m,
      minq := nv, minqi := s.qi, maxq := mx.1, maxqi := mx.2 }
  else if nv ≥ s.maxq then
    { s with p := cmax (ds * s.p) ((1 / nv : ℕ) : ℚ) }
  else
    let qq := s.q.set s.qi nv
    if s.qi = s.maxqi then
      let mx := rescanMax m qq s.maxqi
      { s with q := qq, qi := (s.qi + 1) % m, maxq := mx.1, maxqi := mx.2 }
    else if s.qi = s.minqi then
      let mn := rescanMin n m qq s.minqi
      { s with q := qq, qi := (s.qi + 1) % m, minq := mn.1, minqi := mn.2 }
    else
      { s with q := qq, qi := (s.qi + 1) % m }

/-- Queue state at driver entry: every slot holds the sentinel `n`,
`min_queue = max_queue = n`, `min_queue_index = 0`,
`max_queue_index = m - 1`, `queue_index = 0`. -/
def qInit (n m : ℕ) (p : ℚ) : QState :=
  ⟨p, List.replicate m n, 0, n, 0, n, m - 1⟩

/-- Values computed by the subspace-minimization phase of one driver
iteration: `update_dual`, `update_primal`, `Dx`, `locate_violators`. -/
structure IterData where
  n_active : ℕ
  x : List ℚ
  z : List ℚ
  diff_x : List ℚ
  n_vio : ℕ
  vio_index : List ℕ
  vio_fitness : List ℚ
  vio_sort : List ℕ

/-- One subspace-minimization + violator-location pass of the driver. -/
def iterData (n : ℕ) (y : List ℚ) (lam : ℚ) (z : List ℚ) : IterData :=
  let ud := update_dual n y z lam
  let x := update_primal n y ud.2 lam
  let dx := Dx n x
  let lv := locate_violators n ud.2 lam dx
  ⟨ud.1, x, ud.2, dx, lv.1, lv.2.1, lv.2.2.1, lv.2.2.2⟩

/-- Mutable driver state between iterations: the primal and dual buffers
and the safeguard-queue state. -/
structure DState where
  x : List ℚ
  z : List ℚ
  qs : QState
  deriving DecidableEq

/-- One full driver iteration in the non-converged case: subspace
minimization, queue/proportion update, `qsort` of `vio_sort` by descending
fitness, and reassignment of `max((int)round(p * n_vio), 1)` violators. -/
def pdas_step (n : ℕ) (y : List ℚ) (lam : ℚ) (m : ℕ) (ds de : ℚ) (s : DState) :
    DState :=
  let d := iterData n y lam s.z
  let qs := queueUpdate n m ds de d.n_vio s.qs
  let sorted := List.insertionSort (fitGE d.vio_fitness) d.vio_sort
  let nre := (max (cround (qs.p * (d.n_vio : ℚ))) 1).toNat
  ⟨d.x, reassign_violators nre d.z d.vio_index sorted, qs⟩

/-- The driver main loop, by remaining iteration count: each iteration runs
the subspace minimization, updates the queue, returns `0` if `n_vio == 0`,
else reassigns and continues; when the budget is exhausted it returns `-1`
with the last computed buffers. -/
def pdas_run (n : ℕ) (y : List ℚ) (lam : ℚ) (m : ℕ) (ds de : ℚ) :
    ℕ → DState → ℤ × DState
  | 0, s => (-1, s)
  | k+1, s =>
    let d := iterData n y lam s.z
    if d.n_vio = 0 then (0, ⟨d.x, d.z, queueUpdate n m ds de d.n_vio s.qs⟩)
    else pdas_run n y lam m ds de k (pdas_step n y lam m ds de s)

/-- Source `active_set` entry point (the `verbose` diagnostics are output
only and are dropped): runs `maxiter` iterations from the caller's `x` and
`z` buffers and the freshly initialised queue. -/
def active_set (n : ℕ) (y : List ℚ) (lam : ℚ) (x0 z : List ℚ) (p : ℚ) (m : ℕ)
    (ds de : ℚ) (maxiter : ℕ) : ℤ × DState :=
  pdas_run n y lam m ds de maxiter ⟨x0, z, qInit n m p⟩

/-! ### Specification-side definitions (used to state the claims) -/

/-- The dual vector restricted to the pinned (inactive) coordinates:
`z_I` padded with zeros on the active set. -/
def maskPin (z : List ℚ) : List ℚ :=
  z.map (fun v => if v = 1 ∨ v = -1 then v else 0)

/-- A coordinate is active when `z[i]` is bit-equal to neither `+1` nor `-1`. -/
def activeB (z : List ℚ) (i : ℕ) : Bool :=
  decide (z.getD i 0 ≠ 1 ∧ z.getD i 0 ≠ -1)

/-- A coordinate is pinned when `z[i]` is bit-equal to `+1` or `-1`. -/
def pinnedB (z : List ℚ) (i : ℕ) : Bool :=
  decide (z.getD i 0 = 1 ∨ z.getD i 0 = -1)

/-- The active indices in increasing walk order. -/
def activeIdx (n : ℕ) (z : List ℚ) : List ℕ :=
  (List.range (n - 2)).filter (activeB z)

/-- Violator test of the claim: pinned up and `(Dx)_i < 0`, pinned down and
`(Dx)_i > 0`, or unpinned with `|z_i| > 1`. -/
def isVioB (z dx : List ℚ) (i : ℕ) : Bool :=
  let zi := z.getD i 0
  let dxi := dx.getD i 0
  if zi = 1 then decide (dxi < 0)
  else if zi = -1 then decide (dxi > 0)
  else decide (zi > 1 ∨ zi < -1)

/-- Fitness of a violator: `max(lam*|dx_i|, 1)` on pinned coordinates and
`max(lam*|dx_i|, |z_i|)` on unpinned ones. -/
def fitSpec (z dx : List ℚ) (lam : ℚ) (i : ℕ) : ℚ :=
  let zi := z.getD i 0
  let dxi := dx.getD i 0
  if zi = 1 ∨ zi = -1 then cmax (lam * |dxi|) 1 else cmax (lam * |dxi|) |zi|

/-- The value written by one `reassign_violators` visit as a function of the
value read: `+1 ↦ 0`, `-1 ↦ 0`, `v > 1 ↦ +1`, `v < -1 ↦ -1`, else
unchanged. -/
def reassignVal (v : ℚ) : ℚ :=
  if v = 1 then 0 else if v = -1 then 0
  else if v > 1 then 1 else if v < -1 then -1 else v

/-- The array cells written by `reassign_violators`:
`vio_index[vio_sort[i]]` for `i = 0..n_vio-1`. -/
def touched (nv : ℕ) (vio_index vio_sort : List ℕ) : List ℕ :=
  (List.range nv).map (fun i => vio_index.getD (vio_sort.getD i 0) 0)

/-- Safeguard-queue invariant (claim C7): the buffer has length `m`, the
three indices are in range, the tracked extrema are attained at their
tracked positions and bound every entry, every entry is at most the
sentinel `n`, and reading backwards from `queue_index` yields the pushed
history (most recent first) with sentinel `n` in unwarmed slots. -/
def QInv (n m : ℕ) (hist : List ℕ) (s : QState) : Prop :=
  s.q.length = m ∧ s.qi < m ∧ s.minqi < m ∧ s.maxqi < m ∧
  s.q.getD s.minqi 0 = s.minq ∧ s.q.getD s.maxqi 0 = s.maxq ∧
  (∀ j, j < m → s.minq ≤ s.q.getD j 0 ∧ s.q.getD j 0 ≤ s.maxq ∧ s.q.getD j 0 ≤ n) ∧
  (∀ j, j < m → s.q.getD ((s.qi + (m - 1 - j)) % m) 0 =
     if h : j < hist.length then hist.get ⟨j, h⟩ else n)

instance QInvDec (n m : ℕ) (hist : List ℕ) (s : QState) : Decidable (QInv n m hist s) := by
  unfold QInv; infer_instance

/-! ### Indexing helpers -/

/-- Index arithmetic for the common list shape
`a :: b :: ((List.range k).map g ++ [c, d])` used by `update_primal` and
`DTx`. -/
lemma getD_shape (a b c d : ℚ) (k : ℕ) (g : ℕ → ℚ) : ∀ j,
    (a :: b :: ((List.range k).map g ++ [c, d])).getD j 0 =
      if j = 0 then a else if j = 1 then b
      else if j - 2 < k then g (j - 2)
      else if j = k + 2 then c else if j = k + 3 then d else 0
  | 0 => by simp
  | 1 => by simp
  | (j+2) => by
    rw [show j + 2 = (j + 1) + 1 from rfl, List.getD_cons_succ, List.getD_cons_succ,
      List.getD_eq_getElem?_getD]
    rcases Nat.lt_or_ge j k with hj | hj
    · rw [List.getElem?_append_left (by simpa using hj), List.getElem?_map,
        List.getElem?_range hj]
      have h1 : j + 2 - 2 < k := by omega
      have h2 : ¬(j + 2 = 0) := by omega
      have h3 : ¬(j + 2 = 1) := by omega
      simp [h1, h2, h3]
      rw [if_pos hj]
    · rw [List.getElem?_append_right (by simpa using hj)]
      have hlen : (List.map g (List.range k)).length = k := by simp
      rw [hlen]
      have h2 : ¬(j + 2 = 0) := by omega
      have h3 : ¬(j + 2 = 1) := by omega
      have h4 : ¬(j + 2 - 2 < k) := by omega
      rcases Nat.lt_or_ge j (k+1) with hk | hk
      · have hjk : j = k := by omega
        subst hjk
        have h5 : j + 2 = j + 2 := rfl
        simp [h2, h3, h4, Nat.sub_self]
      · rcases Nat.lt_or_ge j (k+2) with hk2 | hk2
        · have hjk : j = k + 1 := by omega
          subst hjk
          have h6 : k + 1 - k = 1 := by omega
          have h7 : ¬(k + 1 + 2 = k + 2) := by omega
          simp [h2, h3, h4, h6, h7]
        · have h6 : ¬(j + 2 = k + 2) := by omega
          have h7 : ¬(j + 2 = k + 3) := by omega
          have h8 : ∀ v : ℚ, ([c, d][j - k]?).getD v = v := by
            intro v
            have : j - k ≥ 2 := by omega
            match hjk : j - k, this with
            | (t+2), _ => simp
          simp [h2, h3, h4, h6, h7, h8]
          rw [if_neg (by omega : ¬ j < k)]

/-- After `update_primal`, the primal equals `y - lam * D^T z` coordinatewise. -/
lemma update_primal_eq (n : ℕ) (hn : 4 ≤ n) (y z : List ℚ) (lam : ℚ) (i : ℕ)
    (hi : i < n) :
    (update_primal n y z lam).getD i 0 =
      y.getD i 0 - lam * (DTx (n - 2) z).getD i 0 := by
  have h22 : n - 2 - 2 = n - 4 := by omega
  have h21 : n - 2 - 1 = n - 3 := by omega
  rw [update_primal, DTx, h22, h21, getD_shape, getD_shape]
  split_ifs with h0 h1 hmid hc hd
  · subst h0; ring
  · subst h1; ring
  · have e1 : i - 2 + 1 = i - 1 := by omega
    have e2 : i - 2 + 2 = i := by omega
    rw [e1, e2]
    ring
  · have e : n - 4 + 2 = n - 2 := by omega
    rw [hc, e]
    ring
  · have e : n - 4 + 3 = n - 1 := by omega
    rw [hd, e]
    ring
  · exfalso; omega

/-- The five boundary/interior formulas of the primal update. -/
lemma update_primal_formulas (n : ℕ) (hn : 4 ≤ n) (y z : List ℚ) (lam : ℚ) :
    (update_primal n y z lam).getD 0 0 = y.getD 0 0 + lam * z.getD 0 0 ∧
    (update_primal n y z lam).getD 1 0 =
      y.getD 1 0 + lam * (z.getD 1 0 - 2 * z.getD 0 0) ∧
    (∀ i, 2 ≤ i → i ≤ n - 3 →
      (update_primal n y z lam).getD i 0 =
        y.getD i 0 + lam * (z.getD (i-2) 0 - 2 * z.getD (i-1) 0 + z.getD i 0)) ∧
    (update_primal n y z lam).getD (n-2) 0 =
      y.getD (n-2) 0 + lam * (z.getD (n-4) 0 - 2 * z.getD (n-3) 0) ∧
    (update_primal n y z lam).getD (n-1) 0 =
      y.getD (n-1) 0 + lam * z.getD (n-3) 0 := by
  refine ⟨?_, ?_, ?_, ?_, ?_⟩
  · rw [update_primal, getD_shape, if_pos rfl]; ring
  · rw [update_primal, getD_shape, if_neg (by omega : ¬(1 = 0)), if_pos rfl]; ring
  · intro i h2 h3
    rw [update_primal, getD_shape]
    have c0 : ¬(i = 0) := by omega
    have c1 : ¬(i = 1) := by omega
    have cmid : i - 2 < n - 4 := by omega
    rw [if_neg c0, if_neg c1, if_pos cmid]
    have e1 : i - 2 + 1 = i - 1 := by omega
    have e2 : i - 2 + 2 = i := by omega
    rw [e1, e2]
    ring
  · rw [update_primal, getD_shape]
    have c0 : ¬(n - 2 = 0) := by omega
    have c1 : ¬(n - 2 = 1) := by omega
    have cmid : ¬(n - 2 - 2 < n - 4) := by omega
    have cc : n - 2 = n - 4 + 2 := by omega
    rw [if_neg c0, if_neg c1, if_neg cmid, if_pos cc]
    ring
  · rw [update_primal, getD_shape]
    have c0 : ¬(n - 1 = 0) := by omega
    have c1 : ¬(n - 1 = 1) := by omega
    have cmid : ¬(n - 1 - 2 < n - 4) := by omega
    have cc : ¬(n - 1 = n - 4 + 2) := by omega
    have cd : n - 1 = n - 4 + 3 := by omega
    rw [if_neg c0, if_neg c1, if_neg cmid, if_neg cc, if_pos cd]
    ring

/-! ### Length preservation along the driver loop -/

lemma foldl_fst_length {α : Type} (f : (List ℚ × ℕ) → α → (List ℚ × ℕ))
    (hf : ∀ st a, ((f st a).1).length = st.1.length) :
    ∀ (l : List α) (st : List ℚ × ℕ), ((l.foldl f st).1).length = st.1.length := by
  intro l
  induction l with
  | nil => intro st; rfl
  | cons i t ih => intro st; rw [List.foldl_cons, ih, hf]

lemma foldl_length {α : Type} (f : List ℚ → α → List ℚ)
    (hf : ∀ zc a, (f zc a).length = zc.length) :
    ∀ (l : List α) (z : List ℚ), (l.foldl f z).length = z.length := by
  intro l
  induction l with
  | nil => intro z; rfl
  | cons i t ih => intro z; rw [List.foldl_cons, ih, hf]

lemma rstep_length (zc : List ℚ) (idx : ℕ) : (rstep zc idx).length = zc.length := by
  unfold rstep
  dsimp only
  split_ifs <;> simp [List.length_set]

lemma reassign_violators_length (nv : ℕ) (z : List ℚ) (vi vs : List ℕ) :
    (reassign_violators nv z vi vs).length = z.length := by
  unfold reassign_violators
  exact foldl_length _ (fun zc a => rstep_length _ _) _ _

lemma write_back_length (n : ℕ) (z bsol : List ℚ) :
    (write_back n z bsol).length = z.length := by
  unfold write_back
  refine foldl_fst_length _ ?_ _ _
  intro st a
  dsimp only
  split <;> simp [List.length_set]

lemma update_dual_length (n : ℕ) (y z : List ℚ) (lam : ℚ) :
    (update_dual n y z lam).2.length = z.length :=
  write_back_length n z _

lemma pdas_step_z_length (n : ℕ) (y : List ℚ) (lam : ℚ) (m : ℕ) (ds de : ℚ)
    (s : DState) : (pdas_step n y lam m ds de s).z.length = s.z.length := by
  show (reassign_violators _ (update_dual n y s.z lam).2 _ _).length = s.z.length
  rw [reassign_violators_length, update_dual_length]

/-- Whenever the driver loop returns status `0`, the returned `x` is the
primal update of the returned `z`, and `z` kept its length. -/
lemma pdas_run_status0 (n : ℕ) (y : List ℚ) (lam : ℚ) (m : ℕ) (ds de : ℚ) :
    ∀ (k : ℕ) (s : DState),
      (pdas_run n y lam m ds de k s).1 = 0 →
      (pdas_run n y lam m ds de k s).2.x =
        update_primal n y (pdas_run n y lam m ds de k s).2.z lam ∧
      (pdas_run n y lam m ds de k s).2.z.length = s.z.length := by
  intro k
  induction k with
  | zero =>
    intro s h
    exact absurd h (by norm_num [pdas_run])
  | succ k ih =>
    intro s h
    by_cases hnv : (iterData n y lam s.z).n_vio = 0
    · rw [pdas_run] at h ⊢
      rw [if_pos hnv] at h ⊢
      refine ⟨rfl, ?_⟩
      exact update_dual_length n y s.z lam
    · rw [pdas_run] at h ⊢
      rw [if_neg hnv] at h ⊢
      rcases ih (pdas_step n y lam m ds de s) h with ⟨hx, hlen⟩
      exact ⟨hx, by rw [hlen, pdas_step_z_length]⟩

/-! ### Claim C1 -/

/-- C1, counterexample to the final driver clause of the claim: on
`n = 4`, `y = [0,6,0,0]`, `lambda = 1`, `z = [0,0]`, `p = 1`, `m = 1`,
`delta_s = 1/2`, `delta_e = 2`, `maxiter = 1`, the driver returns `-1`
after `reassign_violators` has pinned `z[0]` to `1`, so the returned
buffers violate `x = y - lambda * D^T z` at index `0`
(`x[0] = 12/5` but `y[0] - lambda*(D^T z)[0] = 1`). -/
theorem C1_counterexample :
    (active_set 4 [0,6,0,0] 1 [0,0,0,0] [0,0] 1 1 (1/2) 2 1).1 = -1 ∧
    ¬ ((active_set 4 [0,6,0,0] 1 [0,0,0,0] [0,0] 1 1 (1/2) 2 1).2.x.getD 0 0 =
        ([0,6,0,0] : List ℚ).getD 0 0 -
          1 * ((DTx (4 - 2)
            (active_set 4 [0,6,0,0] 1 [0,0,0,0] [0,0] 1 1 (1/2) 2 1).2.z).getD 0 0)) := by
  norm_num [active_set, pdas_run, pdas_step, iterData, qInit, queueUpdate, rescanMax,
    rescanMin, update_dual, div_count, divStep, asmAux, bandEntry, solveAug, solveAugF, write_back,
    rule1, rule2, bFormula, update_primal, Dx, locate_violators, lvAux, cmax, cmin, cround,
    reassign_violators, rstep, List.insertionSort, List.orderedInsert, fitGE, DTx,
    List.range_succ]

/-- C1 (amended): after every call to `update_primal`, the written primal
equals `x = y - lambda * D^T z` exactly, with the five stated boundary and
interior formulas; consequently the relation holds for the returned `x`
and `z` whenever the driver converges (status `0`).  (On the `-1` return
path the final `reassign_violators` call modifies `z` after the last
primal update, so the relation can fail there; see `C1_counterexample`.) -/
theorem C1_thm (n : ℕ) (y z x0 : List ℚ) (lam p ds de : ℚ) (m maxiter : ℕ)
    (hn : 4 ≤ n) (hz : z.length = n - 2) :
    (∀ i, i < n → (update_primal n y z lam).getD i 0 =
        y.getD i 0 - lam * (DTx (n - 2) z).getD i 0) ∧
    ((update_primal n y z lam).getD 0 0 = y.getD 0 0 + lam * z.getD 0 0 ∧
     (update_primal n y z lam).getD 1 0 =
       y.getD 1 0 + lam * (z.getD 1 0 - 2 * z.getD 0 0) ∧
     (∀ i, 2 ≤ i → i ≤ n - 3 →
       (update_primal n y z lam).getD i 0 =
         y.getD i 0 + lam * (z.getD (i-2) 0 - 2 * z.getD (i-1) 0 + z.getD i 0)) ∧
     (update_primal n y z lam).getD (n-2) 0 =
       y.getD (n-2) 0 + lam * (z.getD (n-4) 0 - 2 * z.getD (n-3) 0) ∧
     (update_primal n y z lam).getD (n-1) 0 =
       y.getD (n-1) 0 + lam * z.getD (n-3) 0) ∧
    ((active_set n y lam x0 z p m ds de maxiter).1 = 0 →
      (active_set n y lam x0 z p m ds de maxiter).2.x =
        update_primal n y (active_set n y lam x0 z p m ds de maxiter).2.z lam ∧
      (active_set n y lam x0 z p m ds de maxiter).2.z.length = n - 2 ∧
      ∀ i, i < n →
        (active_set n y lam x0 z p m ds de maxiter).2.x.getD i 0 =
          y.getD i 0 -
            lam * ((DTx (n - 2)
              (active_set n y lam x0 z p m ds de maxiter).2.z).getD i 0)) := by
  refine ⟨fun i hi => update_primal_eq n hn y z lam i hi,
    update_primal_formulas n hn y z lam, fun h0 => ?_⟩
  rw [show active_set n y lam x0 z p m ds de maxiter =
        pdas_run n y lam m ds de maxiter ⟨x0, z, qInit n m p⟩ from rfl] at h0 ⊢
  rcases pdas_run_status0 n y lam m ds de maxiter ⟨x0, z, qInit n m p⟩ h0 with ⟨hx, hlen⟩
  refine ⟨hx, by rw [hlen]; exact hz, fun i hi => ?_⟩
  rw [hx]
  exact update_primal_eq n hn y _ lam i hi

/-- C1 witness: the amended theorem applied at a concrete instance. -/
theorem C1_witness :
    (4 ≤ 5 ∧ ([0,0,0] : List ℚ).length = 5 - 2) ∧
    (∀ i, i < 5 → (update_primal 5 [0,0,0,0,0] [0,0,0] 1).getD i 0 =
        ([0,0,0,0,0] : List ℚ).getD i 0 -
          1 * ((DTx (5 - 2) ([0,0,0] : List ℚ)).getD i 0)) :=
  ⟨⟨by norm_num, by norm_num⟩,
   (C1_thm 5 [0,0,0,0,0] [0,0,0] [0,0,0,0,0] 1 1 (1/2) 2 1 3
     (by norm_num) (by norm_num)).1⟩

/-! ### Claim C2 -/

lemma cmax_eq_max (x y : ℚ) : cmax x y = max x y := by
  unfold cmax
  split_ifs with h
  · exact (max_eq_left h.le).symm
  · exact (max_eq_right (not_lt.mp h)).symm

lemma range_map_add (L c : ℕ) :
    (List.range (L+1)).map (fun t => t + c) =
      c :: (List.range L).map (fun t => t + (c+1)) := by
  rw [List.range_succ_eq_map, List.map_cons, List.map_map]
  refine congrArg₂ _ (by omega) (List.map_congr_left ?_)
  intro a _
  simp [Function.comp]
  omega

lemma isVioB_eq (z dx : List ℚ) (i : ℕ) :
    isVioB z dx i =
      (if z.getD i 0 = 1 then decide (dx.getD i 0 < 0)
       else if z.getD i 0 = -1 then decide (dx.getD i 0 > 0)
       else decide (z.getD i 0 > 1 ∨ z.getD i 0 < -1)) := rfl

lemma fitSpec_eq (z dx : List ℚ) (lam : ℚ) (i : ℕ) :
    fitSpec z dx lam i =
      (if z.getD i 0 = 1 ∨ z.getD i 0 = -1 then cmax (lam * |dx.getD i 0|) 1
       else cmax (lam * |dx.getD i 0|) |z.getD i 0|) := rfl

/-- Characterization of the `locate_violators` scan: the outputs are the
filtered index list, its length, the mapped fitnesses, and the identity
permutation shifted by the incoming counter. -/
lemma lvAux_eq (z dx : List ℚ) (lam : ℚ) : ∀ (l : List ℕ) (c : ℕ),
    lvAux z dx lam l c =
      ((l.filter (isVioB z dx)).length,
       l.filter (isVioB z dx),
       (l.filter (isVioB z dx)).map (fitSpec z dx lam),
       (List.range (l.filter (isVioB z dx)).length).map (fun t => t + c)) := by
  intro l
  induction l with
  | nil => intro c; rfl
  | cons i t ih =>
    intro c
    rw [lvAux]
    by_cases h1 : z.getD i 0 = 1
    · by_cases hd : dx.getD i 0 < 0
      · have hv : isVioB z dx i = true := by
          rw [isVioB_eq, if_pos h1]; exact decide_eq_true hd
        have hf : fitSpec z dx lam i = cmax (lam * |dx.getD i 0|) 1 := by
          rw [fitSpec_eq, if_pos (Or.inl h1)]
        rw [List.filter_cons, if_pos hv]
        simp only [if_pos h1, if_pos hd, ih (c+1), List.length_cons,
          List.map_cons, hf, range_map_add]
      · have hv : ¬ (isVioB z dx i = true) := by
          rw [isVioB_eq, if_pos h1]; simpa using hd
        rw [List.filter_cons, if_neg hv]
        simp only [if_pos h1, if_neg hd, ih c]
    · by_cases h2 : z.getD i 0 = -1
      · by_cases hd : dx.getD i 0 > 0
        · have hv : isVioB z dx i = true := by
            rw [isVioB_eq, if_neg h1, if_pos h2]; exact decide_eq_true hd
          have hf : fitSpec z dx lam i = cmax (lam * |dx.getD i 0|) 1 := by
            rw [fitSpec_eq, if_pos (Or.inr h2)]
          rw [List.filter_cons, if_pos hv]
          simp only [if_neg h1, if_pos h2, if_pos hd, ih (c+1), List.length_cons,
            List.map_cons, hf, range_map_add]
        · have hv : ¬ (isVioB z dx i = true) := by
            rw [isVioB_eq, if_neg h1, if_pos h2]; simpa using hd
          rw [List.filter_cons, if_neg hv]
          simp only [if_neg h1, if_pos h2, if_neg hd, ih c]
      · by_cases hg : z.getD i 0 > 1
        · have hv : isVioB z dx i = true := by
            rw [isVioB_eq, if_neg h1, if_neg h2]; exact decide_eq_true (Or.inl hg)
          have hf : fitSpec z dx lam i = cmax (lam * |dx.getD i 0|) |z.getD i 0| := by
            rw [fitSpec_eq, if_neg (by push_neg; exact ⟨h1, h2⟩)]
          rw [List.filter_cons, if_pos hv]
          simp only [if_neg h1, if_neg h2, if_pos hg, ih (c+1), List.length_cons,
            List.map_cons, hf, range_map_add]
        · by_cases hl : z.getD i 0 < -1
          · have hv : isVioB z dx i = true := by
              rw [isVioB_eq, if_neg h1, if_neg h2]; exact decide_eq_true (Or.inr hl)
            have hf : fitSpec z dx lam i = cmax (lam * |dx.getD i 0|) |z.getD i 0| := by
              rw [fitSpec_eq, if_neg (by push_neg; exact ⟨h1, h2⟩)]
            rw [List.filter_cons, if_pos hv]
            simp only [if_neg h1, if_neg h2, if_neg hg, if_pos hl, ih (c+1),
              List.length_cons, List.map_cons, hf, range_map_add]
          · have hv : ¬ (isVioB z dx i = true) := by
              rw [isVioB_eq, if_neg h1, if_neg h2]
              simp only [decide_eq_true_eq]
              push_neg
              exact ⟨not_lt.mp hg, not_lt.mp hl⟩
            rw [List.filter_cons, if_neg hv]
            simp only [if_neg h1, if_neg h2, if_neg hg, if_neg hl, ih c]

/-- C2: for every `i` in `[0, n-3]`, `locate_violators` marks `i` a
violator exactly under the three stated conditions with the stated
fitnesses; it returns the violator count, stores the violator indices in
increasing order in `vio_index`, their fitnesses in `vio_fitness`, and
initialises `vio_sort` to the identity permutation `0..n_vio-1`. -/
theorem C2_thm (n : ℕ) (z : List ℚ) (lam : ℚ) (dx : List ℚ) :
    ((locate_violators n z lam dx).2.1 = (List.range (n-2)).filter (isVioB z dx) ∧
     (locate_violators n z lam dx).1 = (locate_violators n z lam dx).2.1.length ∧
     (locate_violators n z lam dx).2.2.1 =
       (locate_violators n z lam dx).2.1.map (fitSpec z dx lam) ∧
     (locate_violators n z lam dx).2.2.2 = List.range (locate_violators n z lam dx).1 ∧
     List.Sorted (· < ·) (locate_violators n z lam dx).2.1) ∧
    (∀ i, isVioB z dx i = true ↔
      ((z.getD i 0 = 1 ∧ dx.getD i 0 < 0) ∨
       (z.getD i 0 = -1 ∧ dx.getD i 0 > 0) ∨
       (z.getD i 0 ≠ 1 ∧ z.getD i 0 ≠ -1 ∧ 1 < |z.getD i 0|))) ∧
    (∀ i, fitSpec z dx lam i =
      if z.getD i 0 = 1 ∨ z.getD i 0 = -1 then max (lam * |dx.getD i 0|) 1
      else max (lam * |dx.getD i 0|) |z.getD i 0|) := by
  have hmain := lvAux_eq z dx lam (List.range (n-2)) 0
  refine ⟨⟨?_, ?_, ?_, ?_, ?_⟩, ?_, ?_⟩
  · simp only [locate_violators, hmain]
  · simp only [locate_violators, hmain]
  · simp only [locate_violators, hmain]
  · simp only [locate_violators, hmain]
    exact (List.map_congr_left (fun a _ => Nat.add_zero a)).trans (List.map_id _)
  · simp only [locate_violators, hmain]
    exact List.Pairwise.sublist (List.filter_sublist _) (List.pairwise_lt_range _)
  · intro i
    rw [isVioB_eq]
    by_cases h1 : z.getD i 0 = 1
    · rw [if_pos h1]
      simp only [decide_eq_true_eq]
      constructor
      · intro h
        exact Or.inl ⟨h1, h⟩
      · rintro (⟨_, hd⟩ | ⟨h2, _⟩ | ⟨h2, _, _⟩)
        · exact hd
        · exact absurd (h1.symm.trans h2) (by norm_num)
        · exact absurd h1 h2
    · by_cases h2 : z.getD i 0 = -1
      · rw [if_neg h1, if_pos h2]
        simp only [decide_eq_true_eq]
        constructor
        · intro h
          exact Or.inr (Or.inl ⟨h2, h⟩)
        · rintro (⟨hz1, _⟩ | ⟨_, hd⟩ | ⟨_, hz2, _⟩)
          · exact absurd hz1 h1
          · exact hd
          · exact absurd h2 hz2
      · rw [if_neg h1, if_neg h2]
        simp only [decide_eq_true_eq]
        constructor
        · intro h
          refine Or.inr (Or.inr ⟨h1, h2, ?_⟩)
          rw [lt_abs]
          rcases h with hg | hl
          · exact Or.inl hg
          · exact Or.inr (by linarith)
        · rintro (⟨hz1, _⟩ | ⟨hz2, _⟩ | ⟨_, _, habs⟩)
          · exact absurd hz1 h1
          · exact absurd hz2 h2
          · rw [lt_abs] at habs
            rcases habs with hg | hl
            · exact Or.inl hg
            · exact Or.inr (by linarith)
  · intro i
    rw [fitSpec_eq]
    split_ifs <;> rw [cmax_eq_max]


/-! ### Claim C9 -/

lemma div_count_snd_aux (z : List ℚ) : ∀ (l : List ℕ) (st : List ℚ × ℕ),
    (l.foldl (divStep z) st).2 = st.2 - l.countP (pinnedB z) := by
  intro l
  induction l with
  | nil => intro st; rfl
  | cons i t ih =>
    intro st
    rw [List.foldl_cons, List.countP_cons, ih]
    unfold divStep
    dsimp only
    by_cases h : z.getD i 0 = 1 ∨ z.getD i 0 = -1
    · have hp : pinnedB z i = true := decide_eq_true h
      rw [if_pos h, hp]
      simp only [if_true]
      omega
    · have hp : pinnedB z i = false := decide_eq_false h
      rw [if_neg h, hp]
      simp only [Bool.false_eq_true, if_false]
      omega

/-- C9: `update_dual` returns `(n-2)` minus the number of indices
`i ∈ [0, n-3]` with `z[i]` bit-equal to `+1` or `-1` (counted before the
solve overwrites the active coordinates), and this value is the `n_active`
of the per-iteration record. -/
theorem C9_thm (n : ℕ) (y z : List ℚ) (lam : ℚ) :
    (update_dual n y z lam).1 = (n - 2) - (List.range (n - 2)).countP (pinnedB z) ∧
    (iterData n y lam z).n_active = (update_dual n y z lam).1 :=
  ⟨div_count_snd_aux z (List.range (n - 2)) (List.replicate n 0, n - 2), rfl⟩

/-! ### Claims C4 and C10 -/

lemma getD_set_ne {α : Type} (l : List α) (i j : ℕ) (a d : α) (h : i ≠ j) :
    (l.set i a).getD j d = l.getD j d := by
  rw [List.getD_eq_getElem?_getD, List.getD_eq_getElem?_getD, List.getElem?_set,
    if_neg h]

lemma getD_set_self {α : Type} (l : List α) (i : ℕ) (a d : α) (h : i < l.length) :
    (l.set i a).getD i d = a := by
  rw [List.getD_eq_getElem?_getD, List.getElem?_set, if_pos rfl, if_pos h]
  rfl

lemma getD_mem {α : Type} (l : List α) (i : ℕ) (d : α) (h : i < l.length) :
    l.getD i d ∈ l := by
  rw [List.getD_eq_getElem?_getD, List.getElem?_eq_getElem h]
  exact List.getElem_mem h

lemma rstep_getD_ne (zc : List ℚ) (idx j : ℕ) (h : j ≠ idx) :
    (rstep zc idx).getD j 0 = zc.getD j 0 := by
  unfold rstep
  dsimp only
  split_ifs <;> first
    | rfl
    | exact getD_set_ne zc idx j _ 0 (Ne.symm h)

lemma rstep_getD_self (zc : List ℚ) (idx : ℕ) :
    (rstep zc idx).getD idx 0 = reassignVal (zc.getD idx 0) := by
  have hb : ∀ v : ℚ, v ≠ 0 → zc.getD idx 0 = v → idx < zc.length := by
    intro v hv he
    by_contra hc
    push_neg at hc
    rw [List.getD_eq_default _ _ hc] at he
    exact hv he.symm
  unfold rstep reassignVal
  dsimp only
  split_ifs with h1 h2 h3 h4
  · exact (getD_set_self zc idx 0 0 (hb 1 (by norm_num) h1)).symm ▸ rfl
  · exact (getD_set_self zc idx 0 0 (hb (-1) (by norm_num) h2)).symm ▸ rfl
  · exact (getD_set_self zc idx 1 0 (hb _ (by intro h; rw [h] at h3; norm_num at h3) rfl)).symm ▸ rfl
  · exact (getD_set_self zc idx (-1) 0 (hb _ (by intro h; rw [h] at h4; norm_num at h4) rfl)).symm ▸ rfl
  · rfl

lemma reassign_eq_foldl_touched (nv : ℕ) (z : List ℚ) (vi vs : List ℕ) :
    reassign_violators nv z vi vs = (touched nv vi vs).foldl rstep z := by
  unfold reassign_violators touched
  rw [List.foldl_map]

lemma foldl_rstep_getD_not_mem (L : List ℕ) (j : ℕ) (hj : j ∉ L) :
    ∀ z : List ℚ, (L.foldl rstep z).getD j 0 = z.getD j 0 := by
  induction L with
  | nil => intro z; rfl
  | cons a t ih =>
    intro z
    rw [List.foldl_cons, ih (fun hm => hj (List.mem_cons_of_mem a hm)),
      rstep_getD_ne z a j (fun he => hj (he ▸ List.mem_cons_self a t))]

lemma foldl_rstep_getD_nodup (L : List ℕ) (hnd : L.Nodup) :
    ∀ (z : List ℚ) (j : ℕ), j ∈ L →
      (L.foldl rstep z).getD j 0 = reassignVal (z.getD j 0) := by
  induction L with
  | nil => intro z j hj; exact absurd hj (List.not_mem_nil j)
  | cons a t ih =>
    intro z j hj
    rcases List.nodup_cons.mp hnd with ⟨ha, hndt⟩
    rw [List.foldl_cons]
    rcases List.mem_cons.mp hj with rfl | hjt
    · rw [foldl_rstep_getD_not_mem t j ha, rstep_getD_self]
    · rw [ih hndt (rstep z a) j hjt,
        rstep_getD_ne z a j (fun he => ha (he ▸ hjt))]

lemma reassignVal_mem (v : ℚ) (h : v = 1 ∨ v = -1 ∨ 1 < |v|) :
    reassignVal v ∈ ({1, 0, -1} : Set ℚ) := by
  unfold reassignVal
  split_ifs with h1 h2 h3 h4
  · simp
  · simp
  · simp
  · simp
  · exfalso
    rcases h with h | h | h
    · exact h1 h
    · exact h2 h
    · rw [lt_abs] at h
      rcases h with h | h
      · exact h3 h
      · exact h4 (by linarith)

/-- C4: each selected violator index is rewritten by the four-way mapping
`+1 ↦ 0`, `-1 ↦ 0`, `v > 1 ↦ +1`, `v < -1 ↦ -1`; hence every reassigned
index that was in a violator category ends with `z_i ∈ {+1, 0, -1}`.
Distinctness of the selected cells reflects that `vio_index` holds distinct
indices and `vio_sort` is a permutation. -/
theorem C4_thm (nv : ℕ) (z : List ℚ) (vi vs : List ℕ)
    (hnd : (touched nv vi vs).Nodup) :
    (∀ i, i < nv →
      (reassign_violators nv z vi vs).getD ((touched nv vi vs).getD i 0) 0 =
        reassignVal (z.getD ((touched nv vi vs).getD i 0) 0)) ∧
    (∀ i, i < nv →
      (z.getD ((touched nv vi vs).getD i 0) 0 = 1 ∨
       z.getD ((touched nv vi vs).getD i 0) 0 = -1 ∨
       1 < |z.getD ((touched nv vi vs).getD i 0) 0|) →
      (reassign_violators nv z vi vs).getD ((touched nv vi vs).getD i 0) 0 ∈
        ({1, 0, -1} : Set ℚ)) := by
  have hlen : (touched nv vi vs).length = nv := by
    unfold touched
    simp
  have hval : ∀ i, i < nv →
      (reassign_violators nv z vi vs).getD ((touched nv vi vs).getD i 0) 0 =
        reassignVal (z.getD ((touched nv vi vs).getD i 0) 0) := by
    intro i hi
    rw [reassign_eq_foldl_touched]
    exact foldl_rstep_getD_nodup _ hnd z _ (getD_mem _ i 0 (by rw [hlen]; exact hi))
  refine ⟨hval, fun i hi hcat => ?_⟩
  rw [hval i hi]
  exact reassignVal_mem _ hcat

/-- C4 witness: the theorem applied at a concrete input
(`z = [2, 1/2, -3]`, violators at cells `0` and `2`). -/
theorem C4_witness :
    (touched 2 [0, 2] [0, 1] : List ℕ).Nodup ∧
    (∀ i, i < 2 →
      (reassign_violators 2 [2, 1/2, -3] [0, 2] [0, 1]).getD
          ((touched 2 [0, 2] [0, 1]).getD i 0) 0 =
        reassignVal (([2, 1/2, -3] : List ℚ).getD ((touched 2 [0, 2] [0, 1]).getD i 0) 0)) :=
  ⟨by decide, (C4_thm 2 [2, 1/2, -3] [0, 2] [0, 1] (by decide)).1⟩

/-- C10: `reassign_violators` writes only the cells
`z[vio_index[vio_sort[i]]]` for `i < n_vio`: every other coordinate of `z`
is unchanged and the length is preserved.  (`vio_index` and `vio_sort` are
read-only `const` inputs in the source; in the functional embedding they
are not written by construction.) -/
theorem C10_thm (nv : ℕ) (z : List ℚ) (vi vs : List ℕ) (j : ℕ)
    (hj : j ∉ touched nv vi vs) :
    (reassign_violators nv z vi vs).getD j 0 = z.getD j 0 ∧
    (reassign_violators nv z vi vs).length = z.length := by
  constructor
  · rw [reassign_eq_foldl_touched]
    exact foldl_rstep_getD_not_mem _ j hj z
  · exact reassign_violators_length nv z vi vs

/-- C10 witness: the frame theorem applied at a concrete input and a
concrete untouched index. -/
theorem C10_witness :
    (1 ∉ touched 2 [0, 2] [0, 1]) ∧
    ((reassign_violators 2 [2, 1/2, -3] [0, 2] [0, 1]).getD 1 0 =
      ([2, 1/2, -3] : List ℚ).getD 1 0 ∧
     (reassign_violators 2 [2, 1/2, -3] [0, 2] [0, 1]).length =
      ([2, 1/2, -3] : List ℚ).length) :=
  ⟨by decide, C10_thm 2 [2, 1/2, -3] [0, 2] [0, 1] 1 (by decide)⟩

/-! ### Claim C5 -/

lemma cround_of_nonneg (x : ℚ) (hx : 0 ≤ x) : cround x = ⌊x + 1/2⌋ :=
  if_pos hx

lemma cmin_nonneg (x y : ℚ) (hx : 0 ≤ x) (hy : 0 ≤ y) : 0 ≤ cmin x y := by
  unfold cmin
  split_ifs <;> assumption

lemma cmax_nonneg (x y : ℚ) (hx : 0 ≤ x) (hy : 0 ≤ y) : 0 ≤ cmax x y := by
  unfold cmax
  split_ifs <;> assumption

lemma queueUpdate_p_nonneg (n m : ℕ) (ds de : ℚ) (nv : ℕ) (s : QState)
    (h0 : 0 ≤ s.p) (hds : 0 ≤ ds) (hde : 0 ≤ de) :
    0 ≤ (queueUpdate n m ds de nv s).p := by
  unfold queueUpdate
  dsimp only
  split_ifs <;> dsimp only
  · exact cmin_nonneg _ _ (mul_nonneg hde h0) (by norm_num)
  · exact cmin_nonneg _ _ (mul_nonneg hde h0) (by norm_num)
  · exact cmax_nonneg _ _ (mul_nonneg hds h0) (Nat.cast_nonneg _)
  · exact h0
  · exact h0
  · exact h0

/-- C5: in every driver iteration with `n_vio > 0`, the sorted `vio_sort`
is descending in fitness and is a permutation of the stored `vio_sort`;
the `z` passed to the next iteration is obtained by reassigning exactly
`n_reassign = max(⌊p * n_vio + 1/2⌋, 1)` top-scoring violators under that
ordering (with `p` the freshly updated proportion), and `n_reassign ≥ 1`
whenever `n_vio > 0` (indeed always). -/
theorem C5_thm (n : ℕ) (y : List ℚ) (lam : ℚ) (m : ℕ) (ds de : ℚ) (s : DState)
    (h0 : 0 ≤ s.qs.p) (hds : 0 ≤ ds) (hde : 0 ≤ de) :
    List.Sorted (fitGE (iterData n y lam s.z).vio_fitness)
      (List.insertionSort (fitGE (iterData n y lam s.z).vio_fitness)
        (iterData n y lam s.z).vio_sort) ∧
    (List.insertionSort (fitGE (iterData n y lam s.z).vio_fitness)
        (iterData n y lam s.z).vio_sort).Perm (iterData n y lam s.z).vio_sort ∧
    (pdas_step n y lam m ds de s).z =
      reassign_violators
        ((max (cround
            ((queueUpdate n m ds de (iterData n y lam s.z).n_vio s.qs).p *
              ((iterData n y lam s.z).n_vio : ℚ))) 1).toNat)
        (iterData n y lam s.z).z
        (iterData n y lam s.z).vio_index
        (List.insertionSort (fitGE (iterData n y lam s.z).vio_fitness)
          (iterData n y lam s.z).vio_sort) ∧
    (((max (cround
        ((queueUpdate n m ds de (iterData n y lam s.z).n_vio s.qs).p *
          ((iterData n y lam s.z).n_vio : ℚ))) 1).toNat : ℤ) =
      max ⌊(queueUpdate n m ds de (iterData n y lam s.z).n_vio s.qs).p *
            ((iterData n y lam s.z).n_vio : ℚ) + 1/2⌋ 1) ∧
    1 ≤ (max (cround
        ((queueUpdate n m ds de (iterData n y lam s.z).n_vio s.qs).p *
          ((iterData n y lam s.z).n_vio : ℚ))) 1).toNat := by
  have hqp : 0 ≤ (queueUpdate n m ds de (iterData n y lam s.z).n_vio s.qs).p :=
    queueUpdate_p_nonneg n m ds de _ s.qs h0 hds hde
  have hprod : 0 ≤ (queueUpdate n m ds de (iterData n y lam s.z).n_vio s.qs).p *
      ((iterData n y lam s.z).n_vio : ℚ) :=
    mul_nonneg hqp (by positivity)
  refine ⟨List.sorted_insertionSort _ _, List.perm_insertionSort _ _, rfl, ?_, ?_⟩
  · generalize hX : (queueUpdate n m ds de (iterData n y lam s.z).n_vio s.qs).p *
      ((iterData n y lam s.z).n_vio : ℚ) = X at hprod ⊢
    rw [cround_of_nonneg X hprod]
    exact Int.toNat_of_nonneg (le_trans (by norm_num) (le_max_right _ _))
  · exact Int.toNat_le_toNat (le_max_right _ 1)

/-- C5 witness: the theorem applied at a concrete driver state. -/
theorem C5_witness :
    ((0:ℚ) ≤ (qInit 4 1 1).p ∧ (0:ℚ) ≤ 1/2 ∧ (0:ℚ) ≤ 2) ∧
    1 ≤ (max (cround
        ((queueUpdate 4 1 (1/2) 2
            (iterData 4 [0,6,0,0] 1 (⟨[0,0,0,0], [0,0], qInit 4 1 1⟩ : DState).z).n_vio
            (qInit 4 1 1)).p *
          ((iterData 4 [0,6,0,0] 1
            (⟨[0,0,0,0], [0,0], qInit 4 1 1⟩ : DState).z).n_vio : ℚ))) 1).toNat :=
  ⟨⟨by norm_num [qInit], by norm_num, by norm_num⟩,
   (C5_thm 4 [0,6,0,0] 1 1 (1/2) 2 ⟨[0,0,0,0], [0,0], qInit 4 1 1⟩
     (by norm_num [qInit]) (by norm_num) (by norm_num)).2.2.2.2⟩

/-! ### Claim C6 -/

/-- C6: evaluation of the stagnation branch at a failing input.  With
`n_vio = 2`, `delta_s = 1/2`, `p = 2/5` and queue extrema `min_q = 1`,
`max_q = 2`, the code takes the `n_vio >= max_q` branch and computes
`p = max(delta_s * p, 1 / n_vio) = max(1/5, 0) = 1/5` because `1 / n_vio`
is C integer division (`1 / 2 == 0`), strictly below the exact rational
quotient `1/2` required by the claim; the queue and `queue_index` are
indeed left unchanged. -/
theorem C6_code_eval :
    (queueUpdate 6 1 (1/2) 2 2 ⟨(2/5 : ℚ), [1], 0, 1, 0, 2, 0⟩).p = (1/5 : ℚ) ∧
    (queueUpdate 6 1 (1/2) 2 2 ⟨(2/5 : ℚ), [1], 0, 1, 0, 2, 0⟩).q = [1] ∧
    (queueUpdate 6 1 (1/2) 2 2 ⟨(2/5 : ℚ), [1], 0, 1, 0, 2, 0⟩).qi = 0 ∧
    ((1/5 : ℚ) < 1 / (2 : ℚ)) := by
  norm_num [queueUpdate, cmax]

/-! ### Claim C8 -/

/-- Return-status characterization of the driver loop: status `0` is
returned exactly when some remaining iteration observes `n_vio = 0`, and
otherwise the loop ends with `-1` and the state after all full
iterations. -/
lemma pdas_run_spec (n : ℕ) (y : List ℚ) (lam : ℚ) (m : ℕ) (ds de : ℚ) :
    ∀ (k : ℕ) (s : DState),
      ((pdas_run n y lam m ds de k s).1 = 0 ↔
        ∃ j, j < k ∧
          (iterData n y lam ((pdas_step n y lam m ds de)^[j] s).z).n_vio = 0) ∧
      ((pdas_run n y lam m ds de k s).1 ≠ 0 →
        pdas_run n y lam m ds de k s = (-1, (pdas_step n y lam m ds de)^[k] s)) := by
  intro k
  induction k with
  | zero =>
    intro s
    constructor
    · constructor
      · intro h
        exact absurd h (by norm_num [pdas_run])
      · rintro ⟨j, hj, _⟩
        omega
    · intro _
      rw [Function.iterate_zero_apply]
      rfl
  | succ k ih =>
    intro s
    by_cases hnv : (iterData n y lam s.z).n_vio = 0
    · constructor
      · rw [pdas_run, if_pos hnv]
        exact ⟨fun _ => ⟨0, Nat.succ_pos k, by rwa [Function.iterate_zero_apply]⟩,
          fun _ => rfl⟩
      · rw [pdas_run, if_pos hnv]
        intro h
        exact absurd rfl h
    · rw [pdas_run, if_neg hnv]
      rcases ih (pdas_step n y lam m ds de s) with ⟨ih1, ih2⟩
      constructor
      · rw [ih1]
        constructor
        · rintro ⟨j, hj, h0⟩
          exact ⟨j + 1, by omega, by rwa [Function.iterate_succ_apply]⟩
        · rintro ⟨j, hj, h0⟩
          match j, h0 with
          | 0, h0 =>
            rw [Function.iterate_zero_apply] at h0
            exact absurd h0 hnv
          | (j'+1), h0 =>
            rw [Function.iterate_succ_apply] at h0
            exact ⟨j', by omega, h0⟩
      · intro h
        rw [ih2 h, Function.iterate_succ_apply]

/-- C8: for every valid input, the driver returns `0` iff some iteration
within the first `maxiter` iterations finds `n_vio = 0`, and otherwise
returns `-1` with the last computed `x` and `z` (the state after `maxiter`
full iterations) in the output buffers. -/
theorem C8_thm (n : ℕ) (y x0 z : List ℚ) (lam p ds de : ℚ) (m maxiter : ℕ)
    (hn : 4 ≤ n) (hlam : 0 < lam) (hp0 : 0 < p) (hp1 : p ≤ 1) (hm : 1 ≤ m)
    (hds0 : 0 < ds) (hds1 : ds < 1) (hde : 1 < de) (hmax : 1 ≤ maxiter) :
    ((active_set n y lam x0 z p m ds de maxiter).1 = 0 ↔
      ∃ j, j < maxiter ∧
        (iterData n y lam
          ((pdas_step n y lam m ds de)^[j]
            (⟨x0, z, qInit n m p⟩ : DState)).z).n_vio = 0) ∧
    ((active_set n y lam x0 z p m ds de maxiter).1 ≠ 0 →
      (active_set n y lam x0 z p m ds de maxiter).1 = -1 ∧
      (active_set n y lam x0 z p m ds de maxiter).2 =
        (pdas_step n y lam m ds de)^[maxiter] (⟨x0, z, qInit n m p⟩ : DState)) := by
  rcases pdas_run_spec n y lam m ds de maxiter ⟨x0, z, qInit n m p⟩ with ⟨h1, h2⟩
  refine ⟨h1, fun h => ?_⟩
  have := h2 h
  rw [show active_set n y lam x0 z p m ds de maxiter =
        pdas_run n y lam m ds de maxiter ⟨x0, z, qInit n m p⟩ from rfl, this]
  exact ⟨rfl, rfl⟩

/-- C8 witness: the theorem applied at a concrete valid input. -/
theorem C8_witness :
    ((4:ℕ) ≤ 4 ∧ (0:ℚ) < 1 ∧ (0:ℚ) < 1 ∧ (1:ℚ) ≤ 1 ∧ (1:ℕ) ≤ 1 ∧
     (0:ℚ) < 1/2 ∧ (1/2:ℚ) < 1 ∧ (1:ℚ) < 2 ∧ (1:ℕ) ≤ 2) ∧
    ((active_set 4 [0,6,0,0] 1 [0,0,0,0] [0,0] 1 1 (1/2) 2 2).1 = 0 ↔
      ∃ j, j < 2 ∧
        (iterData 4 [0,6,0,0] 1
          ((pdas_step 4 [0,6,0,0] 1 1 (1/2) 2)^[j]
            (⟨[0,0,0,0], [0,0], qInit 4 1 1⟩ : DState)).z).n_vio = 0) :=
  ⟨⟨by norm_num, by norm_num, by norm_num, by norm_num, by norm_num,
    by norm_num, by norm_num, by norm_num, by norm_num⟩,
   (C8_thm 4 [0,6,0,0] [0,0,0,0] [0,0] 1 1 (1/2) 2 1 2
     (by norm_num) (by norm_num) (by norm_num) (by norm_num) (by norm_num)
     (by norm_num) (by norm_num) (by norm_num) (by norm_num)).1⟩

/-! ### Claim C3 -/

/-- The assembly walk produces, per active index, the `6.0` main diagonal,
the `rule1` coupling with the previously encountered active index (the
incoming `previous` for the first one), the `rule2` coupling with the
active index before that, and the `bFormula` right-hand side. -/
lemma asmAux_eq (y z : List ℚ) (lam : ℚ) (dzi : List ℚ) :
    ∀ (l : List ℕ) (p q : ℤ),
      asmAux y z lam dzi l p q =
        ⟨List.zipWith rule2 (l.filter (activeB z))
            (q :: p :: (l.filter (activeB z)).map (fun t : ℕ => (t : ℤ))),
         List.zipWith rule1 (l.filter (activeB z))
            (p :: (l.filter (activeB z)).map (fun t : ℕ => (t : ℤ))),
         (l.filter (activeB z)).map (fun _ => (6:ℚ)),
         (l.filter (activeB z)).map (bFormula y lam dzi)⟩ := by
  intro l
  induction l with
  | nil => intro p q; rfl
  | cons i rest ih =>
    intro p q
    by_cases h : z.getD i 0 ≠ 1 ∧ z.getD i 0 ≠ -1
    · have hb : activeB z i = true := decide_eq_true h
      rw [asmAux]
      rw [if_pos h]
      rw [List.filter_cons, if_pos hb]
      simp only [ih (i:ℤ) p, List.map_cons, List.zipWith_cons_cons]
    · have hb : activeB z i = false := decide_eq_false h
      rw [asmAux]
      rw [if_neg h]
      rw [List.filter_cons, hb]
      simp only [Bool.false_eq_true, if_false, ih p q]

lemma getD_map_fn (f : ℕ → ℚ) (A : List ℕ) (k : ℕ) (hk : k < A.length) :
    (A.map f).getD k 0 = f (A.getD k 0) := by
  rw [List.getD_eq_getElem?_getD, List.getElem?_map, List.getElem?_eq_getElem hk,
    List.getD_eq_getElem?_getD, List.getElem?_eq_getElem hk]
  rfl

lemma getD_map_intCast (A : List ℕ) (k : ℕ) (hk : k < A.length) :
    (A.map (fun t : ℕ => (t : ℤ))).getD k 0 = ((A.getD k 0 : ℕ) : ℤ) := by
  rw [List.getD_eq_getElem?_getD, List.getElem?_map, List.getElem?_eq_getElem hk,
    List.getD_eq_getElem?_getD, List.getElem?_eq_getElem hk]
  rfl

lemma getD_zipWith_fn (f : ℕ → ℤ → ℚ) (as : List ℕ) (bs : List ℤ) (k : ℕ)
    (ha : k < as.length) (hb : k < bs.length) :
    (List.zipWith f as bs).getD k 0 = f (as.getD k 0) (bs.getD k 0) := by
  have hz : k < (List.zipWith f as bs).length := by
    rw [List.length_zipWith]
    omega
  rw [List.getD_eq_getElem?_getD, List.getElem?_eq_getElem hz, List.getElem_zipWith,
    List.getD_eq_getElem?_getD, List.getElem?_eq_getElem ha,
    List.getD_eq_getElem?_getD, List.getElem?_eq_getElem hb]
  rfl

/-- The pinned part of `z`, read at a possibly negative (out-of-stencil)
integer index: zero below zero, else the `maskPin` value. -/
def wmask (z : List ℚ) (i : ℤ) : ℚ :=
  if 0 ≤ i then
    (if z.getD i.toNat 0 = 1 ∨ z.getD i.toNat 0 = -1 then z.getD i.toNat 0 else 0)
  else 0

/-- Contents of the `div_zi` buffer after the first `t` steps of the
accumulation walk: cells below `t` hold the full stencil sum, cell `t` and
`t+1` hold the partial sums from the processed neighbours, and later cells
are still zero. -/
def divSpec (z : List ℚ) (t j : ℕ) : ℚ :=
  if j < t then
    -(wmask z (j:ℤ)) + 2 * wmask z ((j:ℤ)-1) - wmask z ((j:ℤ)-2)
  else if j = t then 2 * wmask z ((j:ℤ)-1) - wmask z ((j:ℤ)-2)
  else if j = t+1 then -(wmask z ((j:ℤ)-2))
  else 0

lemma maskPin_getD (z : List ℚ) (j : ℕ) :
    (maskPin z).getD j 0 =
      (if z.getD j 0 = 1 ∨ z.getD j 0 = -1 then z.getD j 0 else 0) := by
  unfold maskPin
  rw [List.getD_eq_getElem?_getD, List.getElem?_map, List.getD_eq_getElem?_getD]
  cases h : z[j]? with
  | none => norm_num
  | some v => simp

lemma wmask_neg (z : List ℚ) (i : ℤ) (h : i < 0) : wmask z i = 0 :=
  if_neg (by omega)

lemma wmask_natCast (z : List ℚ) (j : ℕ) : wmask z (j:ℤ) = (maskPin z).getD j 0 := by
  unfold wmask
  rw [if_pos (by positivity), maskPin_getD]
  norm_num

/-- Effect of one accumulation step on the buffer: the three stencil cells
receive `-w`, `+2w`, `-w` (with `w = 0` for an unpinned coordinate, for
which only the zero-initialisation of cell `t+2` happens). -/
lemma divStep_fst_getD (z : List ℚ) (d : List ℚ) (kk t n : ℕ)
    (hlen : d.length = n) (ht : t + 2 < n) :
    (divStep z (d, kk) t).1.length = n ∧
    ∀ j, j < n →
      (divStep z (d, kk) t).1.getD j 0 =
        (if j = t then d.getD t 0 - wmask z (t:ℤ)
         else if j = t+1 then d.getD (t+1) 0 + 2 * wmask z (t:ℤ)
         else if j = t+2 then -(wmask z (t:ℤ))
         else d.getD j 0) := by
  have hw : wmask z (t:ℤ) =
      (if z.getD t 0 = 1 ∨ z.getD t 0 = -1 then z.getD t 0 else 0) := by
    unfold wmask
    rw [if_pos (by positivity)]
    norm_num
  unfold divStep
  dsimp only
  by_cases h : z.getD t 0 = 1 ∨ z.getD t 0 = -1
  · rw [if_pos h]
    have hwv : wmask z (t:ℤ) = z.getD t 0 := by rw [hw, if_pos h]
    dsimp only
    set d0 := d.set (t+2) 0 with hd0
    set d1 := d0.set t (d0.getD t 0 - z.getD t 0) with hd1
    set d2 := d1.set (t+1) (d1.getD (t+1) 0 + 2 * z.getD t 0) with hd2
    set d3 := d2.set (t+2) (d2.getD (t+2) 0 - z.getD t 0) with hd3
    have hlen0 : d0.length = n := by rw [hd0]; simp [List.length_set, hlen]
    have hlen1 : d1.length = n := by rw [hd1]; simp [List.length_set, hlen0]
    have hlen2 : d2.length = n := by rw [hd2]; simp [List.length_set, hlen1]
    have hlen3 : d3.length = n := by rw [hd3]; simp [List.length_set, hlen2]
    have hv1 : d0.getD t 0 = d.getD t 0 := by
      rw [hd0]
      exact getD_set_ne d (t+2) t 0 0 (by omega)
    have hv2 : d1.getD (t+1) 0 = d.getD (t+1) 0 := by
      rw [hd1, getD_set_ne d0 t (t+1) _ 0 (by omega), hd0]
      exact getD_set_ne d (t+2) (t+1) 0 0 (by omega)
    have hv3 : d2.getD (t+2) 0 = 0 := by
      rw [hd2, getD_set_ne d1 (t+1) (t+2) _ 0 (by omega), hd1,
        getD_set_ne d0 t (t+2) _ 0 (by omega), hd0]
      exact getD_set_self d (t+2) 0 0 (by omega)
    refine ⟨hlen3, fun j hj => ?_⟩
    by_cases hj1 : j = t
    · subst hj1
      rw [hd3, getD_set_ne d2 (j+2) j _ 0 (by omega),
        hd2, getD_set_ne d1 (j+1) j _ 0 (by omega),
        hd1, getD_set_self d0 j _ 0 (by omega), hv1, hwv, if_pos rfl]
    · by_cases hj2 : j = t + 1
      · subst hj2
        rw [hd3, getD_set_ne d2 (t+2) (t+1) _ 0 (by omega),
          hd2, getD_set_self d1 (t+1) _ 0 (by omega), hv2, hwv,
          if_neg (by omega), if_pos rfl]
      · by_cases hj3 : j = t + 2
        · subst hj3
          rw [hd3, getD_set_self d2 (t+2) _ 0 (by omega), hv3, hwv,
            if_neg (by omega), if_neg (by omega), if_pos rfl]
          ring
        · rw [hd3, getD_set_ne d2 (t+2) j _ 0 (by omega),
            hd2, getD_set_ne d1 (t+1) j _ 0 (by omega),
            hd1, getD_set_ne d0 t j _ 0 (by omega),
            hd0, getD_set_ne d (t+2) j 0 0 (by omega),
            if_neg hj1, if_neg hj2, if_neg hj3]
  · rw [if_neg h]
    have hwv : wmask z (t:ℤ) = 0 := by rw [hw, if_neg h]
    dsimp only
    refine ⟨by simp [List.length_set, hlen], fun j hj => ?_⟩
    by_cases hj3 : j = t + 2
    · subst hj3
      rw [getD_set_self d (t+2) 0 0 (by omega), hwv,
        if_neg (by omega), if_neg (by omega), if_pos rfl]
      ring
    · rw [getD_set_ne d (t+2) j 0 0 (by omega), hwv]
      by_cases hj1 : j = t
      · subst hj1
        rw [if_pos rfl]
        ring
      · by_cases hj2 : j = t + 1
        · subst hj2
          rw [if_neg (by omega), if_pos rfl]
          ring
        · rw [if_neg hj1, if_neg hj2, if_neg hj3]

/-- Invariant of the `div_zi` accumulation walk after `t` steps. -/
lemma div_fold_inv (n : ℕ) (z : List ℚ) : ∀ t, t ≤ n - 2 →
    ((List.range t).foldl (divStep z) (List.replicate n 0, n - 2)).1.length = n ∧
    ∀ j, j < n →
      ((List.range t).foldl (divStep z) (List.replicate n 0, n - 2)).1.getD j 0 =
        divSpec z t j := by
  intro t
  induction t with
  | zero =>
    intro _
    rw [List.range_zero, List.foldl_nil]
    refine ⟨by simp, fun j hj => ?_⟩
    have hrep : ((List.replicate n (0:ℚ), n - 2).1).getD j 0 = 0 := by
      rw [List.getD_eq_getElem?_getD]
      dsimp only
      rw [List.getElem?_replicate, if_pos hj]
      rfl
    rw [hrep]
    unfold divSpec
    split_ifs with h1 h2 h3
    · omega
    · subst h2
      rw [show ((0:ℕ):ℤ) - 1 = -1 by norm_num, show ((0:ℕ):ℤ) - 2 = -2 by norm_num,
        wmask_neg z (-1) (by norm_num), wmask_neg z (-2) (by norm_num)]
      ring
    · subst h3
      rw [show ((1:ℕ):ℤ) - 2 = -1 by norm_num, wmask_neg z (-1) (by norm_num)]
      ring
    · rfl
  | succ t ih =>
    intro ht
    rcases ih (by omega) with ⟨ihlen, ihval⟩
    have ht2 : t + 2 < n := by omega
    rw [List.range_succ, List.foldl_append, List.foldl_cons, List.foldl_nil]
    rcases hFt : (List.range t).foldl (divStep z) (List.replicate n 0, n - 2) with ⟨dd, kk⟩
    rw [hFt] at ihlen ihval
    dsimp only at ihlen ihval
    rcases divStep_fst_getD z dd kk t n ihlen ht2 with ⟨slen, sval⟩
    refine ⟨slen, fun j hj => ?_⟩
    rw [sval j hj]
    by_cases hj1 : j = t
    · subst hj1
      rw [if_pos rfl, ihval j hj]
      unfold divSpec
      rw [if_neg (lt_irrefl j), if_pos rfl, if_pos (Nat.lt_succ_self j)]
      ring
    · by_cases hj2 : j = t + 1
      · subst hj2
        rw [if_neg hj1, if_pos rfl, ihval (t+1) hj]
        unfold divSpec
        rw [if_neg (by omega : ¬ t + 1 < t), if_neg (by omega : ¬ t + 1 = t),
          if_pos rfl, if_neg (by omega : ¬ t + 1 < t + 1), if_pos rfl]
        have e1 : ((t+1:ℕ):ℤ) - 1 = (t:ℤ) := by push_cast; ring
        have e2 : ((t+1:ℕ):ℤ) - 2 = (t:ℤ) - 1 := by push_cast; ring
        rw [e1, e2]
        ring
      · by_cases hj3 : j = t + 2
        · subst hj3
          rw [if_neg hj1, if_neg hj2, if_pos rfl]
          unfold divSpec
          rw [if_neg (by omega : ¬ t + 2 < t + 1), if_neg (by omega : ¬ t + 2 = t + 1),
            if_pos rfl]
          have e2 : ((t+2:ℕ):ℤ) - 2 = (t:ℤ) := by push_cast; ring
          rw [e2]
        · rw [if_neg hj1, if_neg hj2, if_neg hj3, ihval j hj]
          unfold divSpec
          split_ifs <;> first | rfl | omega

/-- The accumulated `div_zi` buffer is exactly `D^T z_I` (the adjoint
stencil applied to the pinned part of `z`), coordinatewise. -/
lemma div_count_fst_getD (n : ℕ) (z : List ℚ) (hn : 4 ≤ n) :
    ∀ j, j < n → (div_count n z).1.getD j 0 = (DTx (n - 2) (maskPin z)).getD j 0 := by
  intro j hj
  have hmain := (div_fold_inv n z (n - 2) le_rfl).2 j hj
  rw [show div_count n z =
      (List.range (n-2)).foldl (divStep z) (List.replicate n 0, n - 2) from rfl, hmain]
  have h22 : n - 2 - 2 = n - 4 := by omega
  have h21 : n - 2 - 1 = n - 3 := by omega
  rw [DTx, h22, h21, getD_shape]
  unfold divSpec
  by_cases h0 : j = 0
  · subst h0
    rw [if_pos (by omega : 0 < n - 2), if_pos rfl]
    rw [show ((0:ℕ):ℤ) - 1 = -1 by norm_num, show ((0:ℕ):ℤ) - 2 = -2 by norm_num,
      wmask_neg z (-1) (by norm_num), wmask_neg z (-2) (by norm_num), wmask_natCast]
    ring
  · by_cases h1 : j = 1
    · subst h1
      rw [if_pos (by omega : 1 < n - 2), if_neg h0, if_pos rfl]
      rw [show ((1:ℕ):ℤ) - 1 = ((0:ℕ):ℤ) by norm_num,
        show ((1:ℕ):ℤ) - 2 = -1 by norm_num, wmask_neg z (-1) (by norm_num),
        wmask_natCast, wmask_natCast]
      ring
    · by_cases hmid : j < n - 2
      · rw [if_pos hmid, if_neg h0, if_neg h1, if_pos (by omega : j - 2 < n - 4)]
        have ej1 : (j:ℤ) - 1 = ((j - 1 : ℕ) : ℤ) := by omega
        have ej2 : (j:ℤ) - 2 = ((j - 2 : ℕ) : ℤ) := by omega
        have en1 : j - 2 + 1 = j - 1 := by omega
        have en2 : j - 2 + 2 = j := by omega
        rw [ej1, ej2, wmask_natCast, wmask_natCast, wmask_natCast, en1, en2]
        ring
      · by_cases hc : j = n - 2
        · subst hc
          rw [if_neg hmid, if_pos rfl, if_neg h0, if_neg h1,
            if_neg (by omega : ¬ n - 2 - 2 < n - 4), if_pos (by omega : n - 2 = n - 4 + 2)]
          have e1 : ((n-2:ℕ):ℤ) - 1 = ((n - 3 : ℕ) : ℤ) := by omega
          have e2 : ((n-2:ℕ):ℤ) - 2 = ((n - 4 : ℕ) : ℤ) := by omega
          rw [e1, e2, wmask_natCast, wmask_natCast]
          ring
        · have hd : j = n - 1 := by omega
          subst hd
          rw [if_neg hmid, if_neg hc, if_pos (by omega : n - 1 = n - 2 + 1),
            if_neg h0, if_neg h1, if_neg (by omega : ¬ n - 1 - 2 < n - 4),
            if_neg (by omega : ¬ n - 1 = n - 4 + 2), if_pos (by omega : n - 1 = n - 4 + 3)]
          have e2 : ((n-1:ℕ):ℤ) - 2 = ((n - 3 : ℕ) : ℤ) := by omega
          rw [e2, wmask_natCast]

/-- C3: walking `i = 0..n-3`, for the `k`-th active index `i` the assembly
loop of `update_dual` sets the main-diagonal entry to `6.0`, the first
superdiagonal to `-4`/`1`/`0` according to `i - prev` (the previously
encountered active index, initially `-3`), the second superdiagonal to
`1`/`0` according to `i - prev2`, and the right-hand side to
`b_k = (2 y_{i+1} - y_i - y_{i+2})/lam - 2 div_zi_{i+1} + div_zi_i +
div_zi_{i+2}`, where the `div_zi` buffer equals `D^T z_I`, accumulated
from exactly the coordinates with `z` bit-equal to `+1` or `-1`. -/
theorem C3_thm (n : ℕ) (y z : List ℚ) (lam : ℚ) (hn : 4 ≤ n) :
    (∀ k, k < (activeIdx n z).length →
      (asmAux y z lam (div_count n z).1 (List.range (n - 2)) (-3) (-3)).ab0.getD k 0
        = 6) ∧
    (∀ k, k < (activeIdx n z).length →
      (asmAux y z lam (div_count n z).1 (List.range (n - 2)) (-3) (-3)).ab1.getD k 0
        = rule1 ((activeIdx n z).getD k 0)
            (if k = 0 then -3 else (((activeIdx n z).getD (k-1) 0 : ℕ) : ℤ))) ∧
    (∀ k, k < (activeIdx n z).length →
      (asmAux y z lam (div_count n z).1 (List.range (n - 2)) (-3) (-3)).ab2.getD k 0
        = rule2 ((activeIdx n z).getD k 0)
            (if k ≤ 1 then -3 else (((activeIdx n z).getD (k-2) 0 : ℕ) : ℤ))) ∧
    (∀ k, k < (activeIdx n z).length →
      (asmAux y z lam (div_count n z).1 (List.range (n - 2)) (-3) (-3)).b.getD k 0
        = bFormula y lam (div_count n z).1 ((activeIdx n z).getD k 0)) ∧
    (∀ i, bFormula y lam (div_count n z).1 i =
      (2 * y.getD (i+1) 0 - y.getD i 0 - y.getD (i+2) 0) / lam
        - 2 * (div_count n z).1.getD (i+1) 0 + (div_count n z).1.getD i 0
        + (div_count n z).1.getD (i+2) 0) ∧
    (∀ j, j < n →
      (div_count n z).1.getD j 0 = (DTx (n - 2) (maskPin z)).getD j 0) := by
  have ha := asmAux_eq y z lam (div_count n z).1 (List.range (n - 2)) (-3) (-3)
  have hA : (List.range (n - 2)).filter (activeB z) = activeIdx n z := rfl
  rw [hA] at ha
  refine ⟨?_, ?_, ?_, ?_, ?_, div_count_fst_getD n z hn⟩
  · intro k hk
    rw [ha]
    exact getD_map_fn _ _ k hk
  · intro k hk
    rw [ha]
    rw [getD_zipWith_fn rule1 _ _ k hk (by simp; omega)]
    congr 1
    match k with
    | 0 => rfl
    | (k'+1) =>
      rw [List.getD_cons_succ, getD_map_intCast _ k' (by omega)]
      rw [if_neg (by omega), show k' + 1 - 1 = k' from rfl]
  · intro k hk
    rw [ha]
    rw [getD_zipWith_fn rule2 _ _ k hk (by simp; omega)]
    congr 1
    match k with
    | 0 => rfl
    | 1 =>
      rw [List.getD_cons_succ, List.getD_cons_zero, if_pos (by omega)]
    | (k'+2) =>
      rw [List.getD_cons_succ, List.getD_cons_succ, getD_map_intCast _ k' (by omega)]
      rw [if_neg (by omega), show k' + 2 - 2 = k' from rfl]
  · intro k hk
    rw [ha]
    exact getD_map_fn _ _ k hk
  · intro i
    unfold bFormula
    ring

/-- C3 witness: the theorem applied at a concrete input. -/
theorem C3_witness :
    (4:ℕ) ≤ 5 ∧
    (∀ k, k < (activeIdx 5 [1, 0, 3]).length →
      (asmAux [0,1,2,3,4] [1, 0, 3] 2 (div_count 5 [1, 0, 3]).1
          (List.range (5 - 2)) (-3) (-3)).ab0.getD k 0 = 6) :=
  ⟨by norm_num, (C3_thm 5 [0,1,2,3,4] [1, 0, 3] 2 (by norm_num)).1⟩

/-! ### Claim C7 -/

lemma getD_replicate {α : Type} (m i : ℕ) (a d : α) (h : i < m) :
    (List.replicate m a).getD i d = a := by
  rw [List.getD_eq_getElem?_getD, List.getElem?_replicate, if_pos h]
  rfl

lemma rescanMax_aux (q : List ℕ) : ∀ (t : ℕ) (v0 i0 v ix : ℕ),
    (List.range t).foldl
        (fun st j => if q.getD j 0 > st.1 then (q.getD j 0, j) else st) (v0, i0) = (v, ix) →
    v0 ≤ v ∧ (∀ j, j < t → q.getD j 0 ≤ v) ∧
      ((ix = i0 ∧ v = v0) ∨ (ix < t ∧ q.getD ix 0 = v)) := by
  intro t
  induction t with
  | zero =>
    intro v0 i0 v ix h
    rw [List.range_zero, List.foldl_nil] at h
    cases h
    exact ⟨le_rfl, fun j hj => absurd hj (by omega), Or.inl ⟨rfl, rfl⟩⟩
  | succ t ih =>
    intro v0 i0 v ix h
    rw [List.range_succ, List.foldl_append, List.foldl_cons, List.foldl_nil] at h
    rcases hFt : (List.range t).foldl
        (fun st j => if q.getD j 0 > st.1 then (q.getD j 0, j) else st) (v0, i0) with ⟨v1, ix1⟩
    rw [hFt] at h
    dsimp only at h
    rcases ih v0 i0 v1 ix1 hFt with ⟨ih1, ih2, ih3⟩
    by_cases hc : q.getD t 0 > v1
    · rw [if_pos hc] at h
      cases h
      refine ⟨by omega, fun j hj => ?_, Or.inr ⟨by omega, rfl⟩⟩
      rcases Nat.lt_or_ge j t with hj2 | hj2
      · exact le_trans (ih2 j hj2) (by omega)
      · have hjt : j = t := by omega
        subst hjt
        rfl
    · rw [if_neg hc] at h
      cases h
      refine ⟨ih1, fun j hj => ?_, ?_⟩
      · rcases Nat.lt_or_ge j t with hj2 | hj2
        · exact ih2 j hj2
        · have hjt : j = t := by omega
          subst hjt
          omega
      · rcases ih3 with h3 | ⟨h3a, h3b⟩
        · exact Or.inl h3
        · exact Or.inr ⟨by omega, h3b⟩

lemma rescanMin_aux (q : List ℕ) : ∀ (t : ℕ) (v0 i0 v ix : ℕ),
    (List.range t).foldl
        (fun st j => if q.getD j 0 < st.1 then (q.getD j 0, j) else st) (v0, i0) = (v, ix) →
    v ≤ v0 ∧ (∀ j, j < t → v ≤ q.getD j 0) ∧
      ((ix = i0 ∧ v = v0) ∨ (ix < t ∧ q.getD ix 0 = v)) := by
  intro t
  induction t with
  | zero =>
    intro v0 i0 v ix h
    rw [List.range_zero, List.foldl_nil] at h
    cases h
    exact ⟨le_rfl, fun j hj => absurd hj (by omega), Or.inl ⟨rfl, rfl⟩⟩
  | succ t ih =>
    intro v0 i0 v ix h
    rw [List.range_succ, List.foldl_append, List.foldl_cons, List.foldl_nil] at h
    rcases hFt : (List.range t).foldl
        (fun st j => if q.getD j 0 < st.1 then (q.getD j 0, j) else st) (v0, i0) with ⟨v1, ix1⟩
    rw [hFt] at h
    dsimp only at h
    rcases ih v0 i0 v1 ix1 hFt with ⟨ih1, ih2, ih3⟩
    by_cases hc : q.getD t 0 < v1
    · rw [if_pos hc] at h
      cases h
      refine ⟨by omega, fun j hj => ?_, Or.inr ⟨by omega, rfl⟩⟩
      rcases Nat.lt_or_ge j t with hj2 | hj2
      · exact le_trans (by omega) (ih2 j hj2)
      · have hjt : j = t := by omega
        subst hjt
        rfl
    · rw [if_neg hc] at h
      cases h
      refine ⟨ih1, fun j hj => ?_, ?_⟩
      · rcases Nat.lt_or_ge j t with hj2 | hj2
        · exact ih2 j hj2
        · have hjt : j = t := by omega
          subst hjt
          omega
      · rcases ih3 with h3 | ⟨h3a, h3b⟩
        · exact Or.inl h3
        · exact Or.inr ⟨by omega, h3b⟩

lemma push_idx_ne (m qi c : ℕ) (hqi : qi < m) (hc1 : 1 ≤ c) (hc2 : c ≤ m - 1) :
    (qi + c) % m ≠ qi := by
  rcases Nat.lt_or_ge (qi + c) m with h | h
  · rw [Nat.mod_eq_of_lt h]
    omega
  · have h2 : (qi + c) % m = qi + c - m := by
      rw [Nat.mod_eq_sub_mod h, Nat.mod_eq_of_lt (by omega)]
    omega

/-- Pushing `nv` at `queue_index` and advancing the index shifts the
backwards-read history by one: slot `0` behind the new index holds `nv`,
and slot `j+1` holds what slot `j` held before. -/
lemma hist_clause_push (n m : ℕ) (hm : 1 ≤ m) (q : List ℕ) (qi nv : ℕ)
    (hist : List ℕ) (hqi : qi < m) (hq : q.length = m)
    (hold : ∀ j, j < m → q.getD ((qi + (m - 1 - j)) % m) 0 =
       if h : j < hist.length then hist.get ⟨j, h⟩ else n) :
    ∀ j, j < m → (q.set qi nv).getD (((qi + 1) % m + (m - 1 - j)) % m) 0 =
       if h : j < (nv :: hist).length then (nv :: hist).get ⟨j, h⟩ else n := by
  intro j hj
  by_cases hj0 : j = 0
  · subst hj0
    have hidx : ((qi + 1) % m + (m - 1 - 0)) % m = qi := by
      rw [Nat.mod_add_mod]
      have e : qi + 1 + (m - 1 - 0) = qi + m := by omega
      rw [e, Nat.add_mod_right, Nat.mod_eq_of_lt hqi]
    rw [hidx, getD_set_self q qi nv 0 (by omega)]
    rw [dif_pos (by simp)]
    rfl
  · obtain ⟨j1, rfl⟩ : ∃ j1, j = j1 + 1 := ⟨j - 1, by omega⟩
    have hidx : ((qi + 1) % m + (m - 1 - (j1 + 1))) % m = (qi + (m - 1 - j1)) % m := by
      rw [Nat.mod_add_mod]
      congr 1
      omega
    rw [hidx]
    have hne : qi ≠ (qi + (m - 1 - j1)) % m := by
      intro he
      exact push_idx_ne m qi (m - 1 - j1) hqi (by omega) (by omega) he.symm
    rw [getD_set_ne q qi _ nv 0 hne, hold j1 (by omega)]
    by_cases hl : j1 < hist.length
    · rw [dif_pos hl, dif_pos (by simp; omega)]
      rfl
    · rw [dif_neg hl, dif_neg (by simp; omega)]

/-- The queue invariant holds at driver entry. -/
lemma QInv_init (n m : ℕ) (p : ℚ) (hm : 1 ≤ m) : QInv n m [] (qInit n m p) := by
  unfold QInv qInit
  dsimp only
  refine ⟨by simp, by omega, by omega, by omega,
    getD_replicate m 0 n 0 (by omega), getD_replicate m (m-1) n 0 (by omega),
    fun j hj => ?_, fun j hj => ?_⟩
  · rw [getD_replicate m j n 0 hj]
    exact ⟨le_rfl, le_rfl, le_rfl⟩
  · rw [getD_replicate m _ n 0 (Nat.mod_lt _ (by omega))]
    rw [dif_neg (by simp)]

/-- The queue invariant is preserved by the three-branch queue update; the
history grows exactly when the branch pushes (new minimum or intermediate
value), and is untouched in the `n_vio >= max_queue` branch. -/
lemma QInv_queueUpdate (n m : ℕ) (ds de : ℚ) (nv : ℕ) (hist : List ℕ) (s : QState)
    (hm : 1 ≤ m) (hnv : nv + 2 ≤ n) (hinv : QInv n m hist s) :
    QInv n m (if nv < s.minq ∨ nv < s.maxq then nv :: hist else hist)
      (queueUpdate n m ds de nv s) := by
  obtain ⟨hlen, hqi, hminqi, hmaxqi, hminat, hmaxat, hbnd, hhist⟩ := hinv
  have hminmax : s.minq ≤ s.maxq := by
    have := (hbnd s.maxqi hmaxqi).1
    rw [hmaxat] at this
    exact this
  have hqq : ∀ j, j < m → (s.q.set s.qi nv).getD j 0 =
      if s.qi = j then nv else s.q.getD j 0 := by
    intro j hj
    by_cases he : s.qi = j
    · rw [if_pos he, ← he, getD_set_self _ _ _ _ (by rw [hlen]; exact hqi)]
    · rw [if_neg he, getD_set_ne _ _ _ _ _ he]
  have hqqlen : (s.q.set s.qi nv).length = m := by
    rw [List.length_set, hlen]
  have hqiadv : (s.qi + 1) % m < m := Nat.mod_lt _ (by omega)
  unfold queueUpdate
  by_cases hb1 : nv < s.minq
  · rw [if_pos (Or.inl hb1), if_pos hb1]
    dsimp only
    by_cases hqm : s.qi = s.maxqi
    · rw [if_pos hqm]
      rcases hrs : rescanMax m (s.q.set s.qi nv) s.maxqi with ⟨mv, mi⟩
      dsimp only
      rcases rescanMax_aux (s.q.set s.qi nv) m 0 s.maxqi mv mi hrs with ⟨_, hub, hat⟩
      have hmilt : mi < m := by
        rcases hat with ⟨he, _⟩ | ⟨hlt, _⟩
        · rw [he]; exact hmaxqi
        · exact hlt
      have hmiat : (s.q.set s.qi nv).getD mi 0 = mv := by
        rcases hat with ⟨he, hv0⟩ | ⟨_, hvat⟩
        · have h1 := hub mi (by rw [he]; exact hmaxqi)
          omega
        · exact hvat
      unfold QInv
      dsimp only
      refine ⟨hqqlen, hqiadv, hqi, hmilt, ?_, hmiat, fun j hj => ?_, ?_⟩
      · rw [hqq s.qi hqi, if_pos rfl]
      · refine ⟨?_, hub j hj, ?_⟩
        · rw [hqq j hj]
          by_cases he : s.qi = j
          · rw [if_pos he]
          · rw [if_neg he]
            have := (hbnd j hj).1
            omega
        · rw [hqq j hj]
          by_cases he : s.qi = j
          · rw [if_pos he]; omega
          · rw [if_neg he]
            exact (hbnd j hj).2.2
      · exact hist_clause_push n m hm s.q s.qi nv hist hqi hlen hhist
    · rw [if_neg hqm]
      unfold QInv
      dsimp only
      refine ⟨hqqlen, hqiadv, hqi, hmaxqi, ?_, ?_, fun j hj => ?_, ?_⟩
      · rw [hqq s.qi hqi, if_pos rfl]
      · rw [hqq s.maxqi hmaxqi, if_neg hqm]
        exact hmaxat
      · refine ⟨?_, ?_, ?_⟩
        · rw [hqq j hj]
          by_cases he : s.qi = j
          · rw [if_pos he]
          · rw [if_neg he]
            have := (hbnd j hj).1
            omega
        · rw [hqq j hj]
          by_cases he : s.qi = j
          · rw [if_pos he]; omega
          · rw [if_neg he]
            exact (hbnd j hj).2.1
        · rw [hqq j hj]
          by_cases he : s.qi = j
          · rw [if_pos he]; omega
          · rw [if_neg he]
            exact (hbnd j hj).2.2
      · exact hist_clause_push n m hm s.q s.qi nv hist hqi hlen hhist
  · by_cases hb2 : nv ≥ s.maxq
    · rw [if_neg (by omega : ¬ (nv < s.minq ∨ nv < s.maxq)), if_neg hb1, if_pos hb2]
      exact ⟨hlen, hqi, hminqi, hmaxqi, hminat, hmaxat, hbnd, hhist⟩
    · have hb3 : nv < s.maxq := by omega
      rw [if_pos (Or.inr hb3), if_neg hb1, if_neg hb2]
      by_cases hqm : s.qi = s.maxqi
      · rw [if_pos hqm]
        rcases hrs : rescanMax m (s.q.set s.qi nv) s.maxqi with ⟨mv, mi⟩
        dsimp only
        rcases rescanMax_aux (s.q.set s.qi nv) m 0 s.maxqi mv mi hrs with ⟨_, hub, hat⟩
        have hmilt : mi < m := by
          rcases hat with ⟨he, _⟩ | ⟨hlt, _⟩
          · rw [he]; exact hmaxqi
          · exact hlt
        have hmiat : (s.q.set s.qi nv).getD mi 0 = mv := by
          rcases hat with ⟨he, hv0⟩ | ⟨_, hvat⟩
          · have h1 := hub mi (by rw [he]; exact hmaxqi)
            omega
          · exact hvat
        have hqine : s.qi ≠ s.minqi := by
          intro he
          have h1 : s.q.getD s.minqi 0 = s.q.getD s.maxqi 0 := by rw [← he, hqm]
          rw [hminat, hmaxat] at h1
          omega
        unfold QInv
        dsimp only
        refine ⟨hqqlen, hqiadv, hminqi, hmilt, ?_, hmiat, fun j hj => ?_, ?_⟩
        · rw [hqq s.minqi hminqi, if_neg hqine]
          exact hminat
        · refine ⟨?_, hub j hj, ?_⟩
          · rw [hqq j hj]
            by_cases he : s.qi = j
            · rw [if_pos he]; omega
            · rw [if_neg he]
              exact (hbnd j hj).1
          · rw [hqq j hj]
            by_cases he : s.qi = j
            · rw [if_pos he]; omega
            · rw [if_neg he]
              exact (hbnd j hj).2.2
        · exact hist_clause_push n m hm s.q s.qi nv hist hqi hlen hhist
      · rw [if_neg hqm]
        by_cases hqn : s.qi = s.minqi
        · rw [if_pos hqn]
          rcases hrs : rescanMin n m (s.q.set s.qi nv) s.minqi with ⟨mv, mi⟩
          dsimp only
          rcases rescanMin_aux (s.q.set s.qi nv) m n s.minqi mv mi hrs with ⟨_, hlb, hat⟩
          have hqqn : ∀ j, j < m → (s.q.set s.qi nv).getD j 0 ≤ n := by
            intro j hj
            rw [hqq j hj]
            by_cases he : s.qi = j
            · rw [if_pos he]; omega
            · rw [if_neg he]
              exact (hbnd j hj).2.2
          have hmilt : mi < m := by
            rcases hat with ⟨he, _⟩ | ⟨hlt, _⟩
            · rw [he]; exact hminqi
            · exact hlt
          have hmiat : (s.q.set s.qi nv).getD mi 0 = mv := by
            rcases hat with ⟨he, hv0⟩ | ⟨_, hvat⟩
            · have h1 := hlb mi (by rw [he]; exact hminqi)
              have h2 := hqqn mi (by rw [he]; exact hminqi)
              omega
            · exact hvat
          unfold QInv
          dsimp only
          refine ⟨hqqlen, hqiadv, hmilt, hmaxqi, hmiat, ?_, fun j hj => ?_, ?_⟩
          · rw [hqq s.maxqi hmaxqi, if_neg hqm]
            exact hmaxat
          · refine ⟨hlb j hj, ?_, hqqn j hj⟩
            · rw [hqq j hj]
              by_cases he : s.qi = j
              · rw [if_pos he]; omega
              · rw [if_neg he]
                exact (hbnd j hj).2.1
          · exact hist_clause_push n m hm s.q s.qi nv hist hqi hlen hhist
        · rw [if_neg hqn]
          unfold QInv
          dsimp only
          refine ⟨hqqlen, hqiadv, hminqi, hmaxqi, ?_, ?_, fun j hj => ?_, ?_⟩
          · rw [hqq s.minqi hminqi, if_neg hqn]
            exact hminat
          · rw [hqq s.maxqi hmaxqi, if_neg hqm]
            exact hmaxat
          · refine ⟨?_, ?_, ?_⟩
            · rw [hqq j hj]
              by_cases he : s.qi = j
              · rw [if_pos he]; omega
              · rw [if_neg he]
                exact (hbnd j hj).1
            · rw [hqq j hj]
              by_cases he : s.qi = j
              · rw [if_pos he]; omega
              · rw [if_neg he]
                exact (hbnd j hj).2.1
            · rw [hqq j hj]
              by_cases he : s.qi = j
              · rw [if_pos he]; omega
              · rw [if_neg he]
                exact (hbnd j hj).2.2
          · exact hist_clause_push n m hm s.q s.qi nv hist hqi hlen hhist

/-- C7: for every `m >= 1`, the safeguard-queue invariant — the buffer
holds the last pushed violator counts with sentinel `n` in unwarmed slots,
and `min_queue`/`max_queue` are the true extrema of the current entries,
attained at their tracked positions — holds at driver entry and is
preserved by every queue update, including the new-minimum branch (where
only `max_queue` is rescanned, and only when its slot was overwritten) and
the intermediate branch (where the displaced extremum is recomputed). -/
theorem C7_thm (n m : ℕ) (p ds de : ℚ) (nv : ℕ) (hist : List ℕ) (s : QState)
    (hm : 1 ≤ m) (hnv : nv + 2 ≤ n) (hinv : QInv n m hist s) :
    QInv n m [] (qInit n m p) ∧
    QInv n m (if nv < s.minq ∨ nv < s.maxq then nv :: hist else hist)
      (queueUpdate n m ds de nv s) :=
  ⟨QInv_init n m p hm, QInv_queueUpdate n m ds de nv hist s hm hnv hinv⟩

/-- C7 witness: the theorem applied at a concrete queue state. -/
theorem C7_witness :
    ((1:ℕ) ≤ 2 ∧ 3 + 2 ≤ (6:ℕ) ∧ QInv 6 2 [4] ⟨1, [4, 6], 1, 4, 0, 6, 1⟩) ∧
    QInv 6 2 (if 3 < (⟨1, [4, 6], 1, 4, 0, 6, 1⟩ : QState).minq ∨
        3 < (⟨1, [4, 6], 1, 4, 0, 6, 1⟩ : QState).maxq then 3 :: [4] else [4])
      (queueUpdate 6 2 (1/2) 2 3 ⟨1, [4, 6], 1, 4, 0, 6, 1⟩) :=
  ⟨⟨by norm_num, by norm_num, by decide⟩,
   (C7_thm 6 2 1 (1/2) 2 3 [4] ⟨1, [4, 6], 1, 4, 0, 6, 1⟩
     (by norm_num) (by norm_num) (by decide)).2⟩

end Pdas
